import Mathlib

/-
Verification of the Gomoku search-and-evaluation core
(src/gomoku4/simple_board.py, src/gomoku4/alphabeta.py, src/gomoku4/Gomoku4.py).

The board is the padded 1-D array of simple_board.py with the size fixed to 7,
the value used by the program (Gomoku4.py constructs SimpleGoBoard(7)):
NS = size + 1 = 8, maxpoint = size*size + 3*(size+1) = 73, interior cells are
the points 8*row + col with 1 <= row, col <= 7.
-/

namespace Gomoku

/-- Cell contents of the padded 1-D board: EMPTY, BLACK, WHITE, BORDER. -/
inductive Cell where
  | empty
  | black
  | white
  | border
deriving DecidableEq

/-- The two stone colors a player can hold (`is_black_white` in board_util). -/
inductive Player where
  | black
  | white
deriving DecidableEq

/-- The cell value written when a player places a stone. -/
def Player.toCell : Player → Cell
  | .black => .black
  | .white => .white

/-- Modelled from the spec: `GoBoardUtil.opponent`, the color/opponent arithmetic
from the board_util helper module (not among the three source files; the spec
treats it as a pure helper with fixed semantics). -/
def opponent : Player → Player
  | .black => .white
  | .white => .black

/-- Interior (playable) points of the padded board of size 7:
p = 8*row + col with 1 <= row, col <= 7. -/
def isInterior (p : Int) : Bool :=
  decide (9 ≤ p ∧ p ≤ 63 ∧ p % 8 ≠ 0)

/-- Board state: the cell array (total over Int; reads outside [0, 73) never
occur in executions of interest) and the player to move. -/
structure Board where
  cells : Int → Cell
  current_player : Player

/-- Well-formedness: every non-interior point holds the BORDER sentinel,
exactly as `reset` initializes the padded array. -/
def WF (b : Board) : Prop :=
  ∀ p : Int, isInterior p = false → b.cells p = Cell.border

/-- Build a board from an interior-cell assignment; the padding is BORDER. -/
def mkBoard (f : Int → Cell) (pl : Player) : Board :=
  ⟨fun p => if isInterior p then f p else Cell.border, pl⟩

theorem mkBoard_WF (f : Int → Cell) (pl : Player) : WF (mkBoard f pl) := by
  intro p hp
  simp [mkBoard, hp]

/-- `play_move_gomoku` (simple_board.py lines 378-389): reject if the cell is
not empty, otherwise place the stone and set current_player to the opponent
of the color just played. -/
def play_move_gomoku (b : Board) (point : Int) (color : Player) : Bool × Board :=
  if b.cells point ≠ Cell.empty then (false, b)
  else (true, ⟨fun q => if q = point then color.toCell else b.cells q, opponent color⟩)

/-- `undo` (alphabeta.py lines 8-10): clear the cell and flip current_player. -/
def undo (b : Board) (move : Int) : Board :=
  ⟨fun q => if q = move then Cell.empty else b.cells q, opponent b.current_player⟩

/-- The empty size-7 board with Black to move, as `reset(7)` produces it. -/
def emptyBoard : Board := mkBoard (fun _ => Cell.empty) Player.black

/-- C9: `play_move_gomoku` returns False and changes nothing when the target
cell is occupied; otherwise it sets exactly that cell to the given color,
sets current_player to the opponent of that color, returns True, and leaves
every other cell unchanged (in particular it never removes a stone). -/
theorem C9_play_move_gomoku_spec (b : Board) (p : Int) (c : Player) :
    (b.cells p ≠ Cell.empty → play_move_gomoku b p c = (false, b)) ∧
    (b.cells p = Cell.empty →
      (play_move_gomoku b p c).1 = true ∧
      (play_move_gomoku b p c).2.cells p = c.toCell ∧
      (play_move_gomoku b p c).2.current_player = opponent c ∧
      ∀ q, q ≠ p → (play_move_gomoku b p c).2.cells q = b.cells q) := by
  constructor
  · intro h
    simp [play_move_gomoku, h]
  · intro h
    refine ⟨?_, ?_, ?_, ?_⟩ <;> simp [play_move_gomoku, h]
    intro q hq
    simp [hq]

/-- C9 witness: on the empty board, playing Black at point 9 succeeds and
playing again at 9 is rejected without mutation. -/
theorem C9_play_move_gomoku_spec_witness :
    (play_move_gomoku emptyBoard 9 Player.black).1 = true ∧
    ((play_move_gomoku emptyBoard 9 Player.black).2.cells 9 = Cell.black) ∧
    (play_move_gomoku (play_move_gomoku emptyBoard 9 Player.black).2 9 Player.white
      = (false, (play_move_gomoku emptyBoard 9 Player.black).2)) := by
  have h1 : emptyBoard.cells 9 = Cell.empty := by decide
  have h2 := (C9_play_move_gomoku_spec emptyBoard 9 Player.black).2 h1
  refine ⟨h2.1, h2.2.1, ?_⟩
  have h3 : (play_move_gomoku emptyBoard 9 Player.black).2.cells 9 ≠ Cell.empty := by
    rw [h2.2.1]; decide
  exact (C9_play_move_gomoku_spec (play_move_gomoku emptyBoard 9 Player.black).2 9
    Player.white).1 h3

/-- C6 counterexample: the claim quantifies over every player color c, but
playing White on an empty cell of a board where Black is to move and then
undoing leaves current_player = White, not the original Black. -/
theorem C6_counterexample :
    emptyBoard.cells 9 = Cell.empty ∧
    emptyBoard.current_player = Player.black ∧
    (undo (play_move_gomoku emptyBoard 9 Player.white).2 9).current_player
      = Player.white := by
  refine ⟨by decide, rfl, ?_⟩
  rfl

/-- C6 amended: playing any color on an empty cell and undoing restores the
cell array, for every color c including the off-turn one; current_player is
restored exactly when the color played is the player to move (which is how
every caller in the source uses it). -/
theorem C6_undo_restores (b : Board) (p : Int) (c : Player)
    (hp : b.cells p = Cell.empty) :
    (undo (play_move_gomoku b p c).2 p).cells = b.cells ∧
    (c = b.current_player →
      (undo (play_move_gomoku b p c).2 p).current_player = b.current_player) := by
  constructor
  · funext q
    by_cases hq : q = p
    · subst hq
      simp [undo, play_move_gomoku, hp]
    · simp [undo, play_move_gomoku, hp, hq]
  · intro hc
    subst hc
    simp [undo, play_move_gomoku, hp]
    cases b.current_player <;> rfl

/-- C6 amended witness: playing the off-turn color White at 9 on the empty
board and undoing restores the cell array, and playing Black (the player to
move) and undoing also restores current_player. -/
theorem C6_undo_restores_witness :
    (undo (play_move_gomoku emptyBoard 9 Player.white).2 9).cells = emptyBoard.cells ∧
    (undo (play_move_gomoku emptyBoard 9 Player.black).2 9).current_player
      = emptyBoard.current_player :=
  ⟨(C6_undo_restores emptyBoard 9 Player.white (by decide)).1,
   (C6_undo_restores emptyBoard 9 Player.black (by decide)).2 rfl⟩

/-- Result of a routine that contains `assert count <= 5`: a normal value, an
assertion failure (AssertionError in the source), or fuel exhaustion (which
never occurs on well-formed boards and models a diverging scan). -/
inductive Res (α : Type) where
  | val (a : α)
  | assertFail
  | fuelOut
deriving DecidableEq

/-- One scan loop of `_point_direction_check_connect_gomoko` (simple_board.py
lines 400-417): step from `p` by `step`, counting contiguous cells of `color`,
breaking as soon as the count reaches exactly 5 or a different cell appears.
`none` means the fuel ran out. -/
def dirCount (cells : Int → Cell) (color : Cell) (p step : Int) (count : Nat) :
    Nat → Option Nat
  | 0 => none
  | fuel + 1 =>
    if cells (p + step) = color then
      if count + 1 = 5 then some 5
      else dirCount cells color (p + step) step (count + 1) fuel
    else some count

/-- Plain maximal contiguous run length of `color` cells strictly beyond `p`
in direction `step` (the reference notion used to state run-length facts). -/
def runLen (cells : Int → Cell) (color : Cell) (p step : Int) : Nat → Nat
  | 0 => 0
  | fuel + 1 =>
    if cells (p + step) = color then runLen cells color (p + step) step fuel + 1
    else 0

/-- `_point_direction_check_connect_gomoko` (simple_board.py lines 391-419):
count the run through `point` along `±shift` with the 5-cap on each loop,
then `assert count <= 5` and report `count == 5`. -/
def point_direction_check_connect_gomoko (b : Board) (point shift : Int) : Res Bool :=
  match dirCount b.cells (b.cells point) point shift 1 80 with
  | none => .fuelOut
  | some c1 =>
    match dirCount b.cells (b.cells point) point (-shift) c1 80 with
    | none => .fuelOut
    | some c2 => if c2 ≤ 5 then .val (decide (c2 = 5)) else .assertFail

/-- Sequencing of direction checks with early exit on a found connect-5. -/
def seqDir (r : Res Bool) (rest : Unit → Res Bool) : Res Bool :=
  match r with
  | .val true => .val true
  | .val false => rest ()
  | .assertFail => .assertFail
  | .fuelOut => .fuelOut

/-- `point_check_game_end_gomoku` (simple_board.py lines 421-441): test the
four line directions (horizontal 1, vertical 8, diagonal 9, diagonal 7). -/
def point_check_game_end_gomoku (b : Board) (point : Int) : Res Bool :=
  seqDir (point_direction_check_connect_gomoko b point 1) fun _ =>
  seqDir (point_direction_check_connect_gomoko b point 8) fun _ =>
  seqDir (point_direction_check_connect_gomoko b point 9) fun _ =>
  point_direction_check_connect_gomoko b point 7

/-- All indices of the padded array in ascending order, as `where1d` scans. -/
def boardRange : List Int := (List.range 73).map (fun n : Nat => (n : Int))

/-- Modelled from the spec: `where1d(board == c)`, the ascending list of array
indices holding `c` (board_util helper, treated by the spec as a pure
array predicate). -/
def pointsOf (b : Board) (c : Cell) : List Int :=
  boardRange.filter (fun p => b.cells p = c)

/-- Scan a color's stones in ascending order for a connect-5 through one of
them, propagating assertion failures. -/
def findWinPoint (b : Board) : List Int → Res Bool
  | [] => .val false
  | p :: ps =>
    match point_check_game_end_gomoku b p with
    | .val true => .val true
    | .val false => findWinPoint b ps
    | .assertFail => .assertFail
    | .fuelOut => .fuelOut

/-- `check_game_end_gomoku` (simple_board.py lines 443-458): scan all White
stones, then all Black stones, returning the first detected winner. -/
def check_game_end_gomoku (b : Board) : Res (Bool × Option Player) :=
  match findWinPoint b (pointsOf b Cell.white) with
  | .val true => .val (true, some Player.white)
  | .val false =>
    match findWinPoint b (pointsOf b Cell.black) with
    | .val true => .val (true, some Player.black)
    | .val false => .val (false, none)
    | .assertFail => .assertFail
    | .fuelOut => .fuelOut
  | .assertFail => .assertFail
  | .fuelOut => .fuelOut

/-- The capped scan loop, related to the plain run length: provided some cell
within fuel stops the run, the loop returns the run length added to the
incoming count, capped at 5 only while the incoming count is below 5. -/
theorem dirCount_eq_runLen (cells : Int → Cell) (color : Cell) (step : Int) :
    ∀ (fuel : Nat) (p : Int) (count : Nat),
      (∃ k < fuel, cells (p + (k + 1) * step) ≠ color) →
      dirCount cells color p step count fuel =
        some (if count < 5 then min (count + runLen cells color p step fuel) 5
              else count + runLen cells color p step fuel) := by
  intro fuel
  induction fuel with
  | zero => intro p count h; exact absurd h (by simp)
  | succ n ih =>
    intro p count h
    by_cases hq : cells (p + step) = color
    · by_cases hc : count + 1 = 5
      · have h4 : count = 4 := by omega
        subst h4
        have hr : 1 ≤ runLen cells color p step (n + 1) + 4 + 1 := by omega
        simp only [dirCount, hq, if_pos rfl, runLen, if_pos hq]
        have : min (4 + (runLen cells color (p + step) step n + 1)) 5 = 5 := by omega
        simp [this]
      · obtain ⟨k, hk, hkc⟩ := h
        have hk0 : k ≠ 0 := by
          intro h0; subst h0; simp at hkc; exact hkc hq
        obtain ⟨k', rfl⟩ := Nat.exists_eq_succ_of_ne_zero hk0
        have hstop : ∃ j < n, cells ((p + step) + (j + 1) * step) ≠ color := by
          refine ⟨k', by omega, ?_⟩
          have : p + step + (k' + 1) * step = p + (k' + 1 + 1) * step := by ring
          rw [this]
          exact hkc
        have := ih (p + step) (count + 1) hstop
        simp only [dirCount, hq, if_neg hc, runLen]
        rw [this]
        by_cases h5 : count < 5
        · have h5' : count + 1 < 5 := by omega
          simp [h5, h5']
          omega
        · have h5' : ¬ (count + 1 < 5) := by omega
          simp [h5, h5']
          omega
    · simp only [dirCount, hq, if_neg hq, runLen]
      by_cases h5 : count < 5
      · simp [h5]; omega
      · simp [h5]

/-- On a well-formed board, a stone's directional scan always stops within the
fuel bound, because the padded border is reached. -/
theorem stopWithin (b : Board) (hWF : WF b) (p : Int) (pl : Player)
    (hp : b.cells p = pl.toCell) (step : Int) (hs : 1 ≤ step ∨ step ≤ -1) :
    ∃ k : Nat, k < 80 ∧ b.cells (p + ((k : Int) + 1) * step) ≠ pl.toCell := by
  have hint : isInterior p = true := by
    by_cases h : isInterior p = true
    · exact h
    · have := hWF p (by simpa using h)
      rw [hp] at this
      cases pl <;> simp [Player.toCell] at this
  have hbound : 9 ≤ p ∧ p ≤ 63 := by
    have := of_decide_eq_true hint
    exact ⟨this.1, this.2.1⟩
  refine ⟨72, by omega, ?_⟩
  have h73 : ((72 : Nat) : Int) + 1 = 73 := by norm_num
  rw [h73]
  have hni : isInterior (p + 73 * step) = false := by
    rcases hs with h1 | h1
    · have : 63 < p + 73 * step := by nlinarith
      simp only [isInterior, decide_eq_false_iff_not]
      omega
    · have : p + 73 * step < 9 := by nlinarith
      simp only [isInterior, decide_eq_false_iff_not]
      omega
  have := hWF _ hni
  rw [this]
  cases pl <;> simp [Player.toCell]

/-- C2 amended: on a well-formed board, for a stone at `p` and any of the four
direction shifts, with F and B the forward and backward contiguous same-color
run lengths beyond `p`: a total run F+B+1 of exactly 5 reports True; a run of
at most 4 reports False; a run of 6 or more never reports False — it reports
True (when F ≥ 4 forces the forward cap with no backward stone, or when F ≤ 3)
or fails the internal `count <= 5` assertion (when F ≥ 4 and B ≥ 1). The
original claim is wrong for runs of length ≥ 6, which do trigger the check. -/
theorem C2_run_exactness (b : Board) (hWF : WF b) (p : Int) (pl : Player)
    (hp : b.cells p = pl.toCell) (shift : Int)
    (hs : shift = 1 ∨ shift = 7 ∨ shift = 8 ∨ shift = 9) :
    (runLen b.cells pl.toCell p shift 80 + runLen b.cells pl.toCell p (-shift) 80 + 1 = 5 →
      point_direction_check_connect_gomoko b p shift = .val true) ∧
    (runLen b.cells pl.toCell p shift 80 + runLen b.cells pl.toCell p (-shift) 80 + 1 ≤ 4 →
      point_direction_check_connect_gomoko b p shift = .val false) ∧
    (6 ≤ runLen b.cells pl.toCell p shift 80 + runLen b.cells pl.toCell p (-shift) 80 + 1 →
      point_direction_check_connect_gomoko b p shift = .val true ∨
      point_direction_check_connect_gomoko b p shift = .assertFail) := by
  have hfwd := stopWithin b hWF p pl hp shift (by omega)
  have hbwd := stopWithin b hWF p pl hp (-shift) (by omega)
  set F := runLen b.cells pl.toCell p shift 80 with hF
  set B := runLen b.cells pl.toCell p (-shift) 80 with hB
  have h1 : dirCount b.cells (b.cells p) p shift 1 80 =
      some (min (1 + F) 5) := by
    rw [hp]
    have := dirCount_eq_runLen b.cells pl.toCell shift 80 p 1 hfwd
    rw [this]
    norm_num
  have hkey : ∀ c1 : Nat, dirCount b.cells (b.cells p) p (-shift) c1 80 =
      some (if c1 < 5 then min (c1 + B) 5 else c1 + B) := by
    intro c1
    rw [hp]
    exact dirCount_eq_runLen b.cells pl.toCell (-shift) 80 p c1 hbwd
  have hpdc : point_direction_check_connect_gomoko b p shift =
      (if (if (1 + F) ⊓ 5 < 5 then ((1 + F) ⊓ 5 + B) ⊓ 5 else (1 + F) ⊓ 5 + B) ≤ 5
       then Res.val (decide
         ((if (1 + F) ⊓ 5 < 5 then ((1 + F) ⊓ 5 + B) ⊓ 5 else (1 + F) ⊓ 5 + B) = 5))
       else Res.assertFail) := by
    simp only [point_direction_check_connect_gomoko, h1, hkey]
  refine ⟨?_, ?_, ?_⟩
  · intro hL
    rw [hpdc]
    by_cases h4 : 4 ≤ F
    · have hF4 : F = 4 := by omega
      have hB0 : B = 0 := by omega
      rw [hF4, hB0]
      norm_num
    · have e1 : (1 + F) ⊓ 5 = 1 + F := by omega
      have e2 : 1 + F < 5 := by omega
      have e3 : (1 + F + B) ⊓ 5 = 5 := by omega
      rw [e1]
      simp [e2, e3]
  · intro hL
    rw [hpdc]
    have e1 : (1 + F) ⊓ 5 = 1 + F := by omega
    have e2 : 1 + F < 5 := by omega
    have e3 : (1 + F + B) ⊓ 5 = 1 + F + B := by omega
    have e4 : 1 + F + B ≤ 5 := by omega
    have e5 : ¬ (1 + F + B = 5) := by omega
    rw [e1]
    simp [e2, e3, e4, e5]
  · intro hL
    rw [hpdc]
    by_cases h4 : 4 ≤ F
    · have e1 : (1 + F) ⊓ 5 = 5 := by omega
      rw [e1]
      by_cases hB0 : B = 0
      · left; simp [hB0]
      · right
        have e2 : ¬ (5 + B ≤ 5) := by omega
        simp [e2]
    · have e1 : (1 + F) ⊓ 5 = 1 + F := by omega
      have e2 : 1 + F < 5 := by omega
      have e3 : (1 + F + B) ⊓ 5 = 5 := by omega
      left
      rw [e1]
      simp [e2, e3]

/-- Board with a horizontal Black run of exactly six stones at points 9-14. -/
def cb2 : Board := mkBoard (fun p => if p ≤ 14 then Cell.black else Cell.empty) Player.black

/-- C2 counterexample: on a board whose only stones form a horizontal Black
run of exactly six (forward run 5 and backward run 0 from point 9), the
game-end scan does report a Black win, refuting the claim that runs of length
6 or more never report via the length-5 check. -/
theorem C2_counterexample :
    runLen cb2.cells Cell.black 9 1 80 = 5 ∧
    runLen cb2.cells Cell.black 9 (-1) 80 = 0 ∧
    check_game_end_gomoku cb2 = .val (true, some Player.black) := by
  refine ⟨by decide, by decide, by decide⟩

/-- Board with a horizontal Black run of exactly five stones at points 9-13. -/
def cb5 : Board := mkBoard (fun p => if p ≤ 13 then Cell.black else Cell.empty) Player.black

/-- C2 witness: for the stone at point 9 of an exact horizontal five-run
(forward run 4, backward run 0), the direction check reports True, and for the
vertical direction (total run 1) it reports False. -/
theorem C2_run_exactness_witness :
    point_direction_check_connect_gomoko cb5 9 1 = .val true ∧
    point_direction_check_connect_gomoko cb5 9 8 = .val false := by
  constructor
  · exact (C2_run_exactness cb5 (mkBoard_WF _ _) 9 Player.black (by decide) 1
      (by left; rfl)).1 (by decide)
  · exact (C2_run_exactness cb5 (mkBoard_WF _ _) 9 Player.black (by decide) 8
      (by right; right; left; rfl)).2.1 (by decide)

/-- Characters of the fixed pattern strings: own stone `x`, opponent stone
`o`, empty `.`, border (`#` in getPointRep, `B` in check_pattern). -/
inductive RChar where
  | x
  | o
  | dot
  | bdr
deriving DecidableEq

/-- `getPointRep` (simple_board.py lines 564-572) and the piece classification
inside `check_pattern` (lines 489-497), for the player currently to move. -/
def rep (b : Board) (q : Int) : RChar :=
  if b.cells q = b.current_player.toCell then .x
  else if b.cells q = Cell.empty then .dot
  else if b.cells q = Cell.border then .bdr
  else .o

theorem rep_dot (b : Board) (q : Int) (h : rep b q = RChar.dot) :
    b.cells q = Cell.empty := by
  unfold rep at h
  split_ifs at h
  assumption

theorem rep_x (b : Board) (q : Int) (h : rep b q = RChar.x) :
    b.cells q = b.current_player.toCell := by
  unfold rep at h
  split_ifs at h
  assumption

theorem rep_of_cp (b : Board) (q : Int) (h : b.cells q = b.current_player.toCell) :
    rep b q = RChar.x := by
  simp [rep, h]

theorem rep_of_empty (b : Board) (q : Int) (h : b.cells q = Cell.empty) :
    rep b q = RChar.dot := by
  have hne : Cell.empty ≠ b.current_player.toCell := by
    cases b.current_player <;> simp [Player.toCell]
  unfold rep
  rw [h]
  simp [hne]

/-- Lookup in `winDict` (simple_board.py lines 22-35): the five own-win
5-patterns map to True, the five must-block 5-patterns map to False. -/
def winLookup (v : List RChar) : Option Bool :=
  if v = [.x,.dot,.x,.x,.x] then some true
  else if v = [.x,.x,.dot,.x,.x] then some true
  else if v = [.x,.x,.x,.dot,.x] then some true
  else if v = [.dot,.x,.x,.x,.x] then some true
  else if v = [.x,.x,.x,.x,.dot] then some true
  else if v = [.o,.dot,.o,.o,.o] then some false
  else if v = [.o,.o,.dot,.o,.o] then some false
  else if v = [.o,.o,.o,.dot,.o] then some false
  else if v = [.dot,.o,.o,.o,.o] then some false
  else if v = [.o,.o,.o,.o,.dot] then some false
  else none

/-- Lookup in `threatDict` (simple_board.py lines 40-51): 6-patterns mapped to
(is own threat, steps back to the play point). -/
def threatLookup (v : List RChar) : Option (Bool × Nat) :=
  if v = [.dot,.x,.dot,.x,.x,.dot] then some (true, 3)
  else if v = [.dot,.x,.x,.dot,.x,.dot] then some (true, 2)
  else if v = [.dot,.x,.x,.x,.dot,.dot] then some (true, 1)
  else if v = [.dot,.dot,.x,.x,.x,.dot] then some (true, 4)
  else if v = [.dot,.o,.dot,.o,.o,.dot] then some (false, 3)
  else if v = [.dot,.o,.o,.dot,.o,.dot] then some (false, 2)
  else if v = [.dot,.o,.o,.o,.dot,.dot] then some (false, 1)
  else if v = [.dot,.dot,.o,.o,.o,.dot] then some (false, 4)
  else none

/-- Index of the first `.` in a pattern string (`s.index(".")` in checkWin). -/
def firstDotIdx (v : List RChar) : Nat :=
  v.findIdx (fun c => c == RChar.dot)

/-- Accumulators of `winDetection`: the blocks-needed list and the two-move
threat lists (`myWins` is only ever populated at the early-exit return). -/
structure WDAcc where
  theirWins : List Int
  my2m : List Int
  their2m : List Int
deriving DecidableEq

/-- `checkThreat` (simple_board.py lines 575-582) applied to a full 6-window. -/
def checkThreatUpd (b : Board) (w6 : List Int) (p t : Int) (acc : WDAcc) : WDAcc :=
  match threatLookup (w6.map (rep b)) with
  | none => acc
  | some (true, back) => { acc with my2m := acc.my2m ++ [p - (back : Int) * t] }
  | some (false, back) => { acc with their2m := acc.their2m ++ [p - (back : Int) * t] }

/-- One iteration of the winDetection inner loop (simple_board.py lines
611-624 and the three analogous loops): extend the window with the point just
read, run the length-6 threat check and drop the oldest character, then run
the length-5 win check; a confirmed own win aborts the whole scan with the
win point `p + (index of "." - 4) * step`. -/
def wdStep (b : Board) (t p : Int) (w : List Int) (acc : WDAcc) :
    Except Int (List Int × WDAcc) :=
  let w1 := w ++ [p]
  let acc1 := if w1.length = 6 then checkThreatUpd b w1 p t acc else acc
  let w2 := if w1.length = 6 then w1.drop 1 else w1
  if w2.length = 5 then
    match winLookup (w2.map (rep b)) with
    | some true => .error (p + ((firstDotIdx (w2.map (rep b)) : Int) - 4) * t)
    | some false => .ok (w2, { acc1 with
        theirWins := acc1.theirWins ++ [p + ((firstDotIdx (w2.map (rep b)) : Int) - 4) * t] })
    | none => .ok (w2, acc1)
  else .ok (w2, acc1)

/-- One line scan of `winDetection`: slide over the points of a maximal line. -/
def scanLine (b : Board) (t : Int) : List Int → List Int → WDAcc → Except Int WDAcc
  | [], _, acc => .ok acc
  | p :: ps, w, acc =>
    match wdStep b t p w acc with
    | .error q => .error q
    | .ok (w2, acc2) => scanLine b t ps w2 acc2

/-- Arithmetic line of points: start, start+t, ..., start+(len-1)t. -/
def lineOf (s t : Int) : Nat → List Int
  | 0 => []
  | n + 1 => s :: lineOf (s + t) t n

/-- The maximal lines scanned by `winDetection` for size 7, in scan order
(start, step, length): the 7 rows, the 7 columns, the 5 length-≥5 diagonals
with step 9 in the order dIStarts = [9,17,10,25,11] produces, and the 5
diagonals with step 7 in the order dIIStarts = [15,14,23,13,31] produces
(simple_board.py lines 610, 628, 640-670, 672-702). -/
def wdLineSpecs : List (Int × Int × Nat) :=
  ((List.range 7).map (fun i => ((9 + 8 * (i : Int)), (1 : Int), 7))) ++
  ((List.range 7).map (fun i => ((9 + (i : Int)), (8 : Int), 7))) ++
  [(9, 9, 7), (17, 9, 6), (10, 9, 6), (25, 9, 5), (11, 9, 5)] ++
  [(15, 7, 7), (14, 7, 6), (23, 7, 6), (13, 7, 5), (31, 7, 5)]

/-- Run the line scans in order, aborting on the first confirmed own win. -/
def runLines (b : Board) : List (Int × Int × Nat) → WDAcc → Except Int WDAcc
  | [], acc => .ok acc
  | x :: rest, acc =>
    match scanLine b x.2.1 (lineOf x.1 x.2.1 x.2.2) [] acc with
    | .error q => .error q
    | .ok acc2 => runLines b rest acc2

/-- `winDetection` (simple_board.py lines 597-704): the four buckets
(own wins, opponent wins, own two-move wins, opponent two-move wins); on the
first confirmed own win it returns that single point with the other three
buckets empty. -/
def winDetection (b : Board) : List Int × List Int × List Int × List Int :=
  match runLines b wdLineSpecs ⟨[], [], []⟩ with
  | .error q => ([q], [], [], [])
  | .ok acc => ([], acc.theirWins, acc.my2m, acc.their2m)

/-- All 5-in-a-line windows of the 7x7 board, as (start point, step):
horizontal, vertical, and the two diagonal directions, by coordinates. -/
def geoWindows5 : List (Int × Int) :=
  ((List.range 7).flatMap fun r => (List.range 3).map fun c =>
    ((8 * ((r : Int) + 1) + ((c : Int) + 1), (1 : Int)))) ++
  ((List.range 3).flatMap fun r => (List.range 7).map fun c =>
    ((8 * ((r : Int) + 1) + ((c : Int) + 1), (8 : Int)))) ++
  ((List.range 3).flatMap fun r => (List.range 3).map fun c =>
    ((8 * ((r : Int) + 1) + ((c : Int) + 1), (9 : Int)))) ++
  ((List.range 3).flatMap fun r => (List.range 3).map fun c =>
    ((8 * ((r : Int) + 1) + ((c : Int) + 5), (7 : Int))))

/-- A win event for the player to move in the 5-window starting at ws with
step t: q is the single empty cell of the window and the other four cells
hold the mover's stones. -/
def WinEvt (b : Board) (ws t q : Int) : Prop :=
  ∃ j ∈ List.range 5, q = ws + (j : Int) * t ∧ b.cells q = Cell.empty ∧
    ∀ i ∈ List.range 5, i ≠ j → b.cells (ws + (i : Int) * t) = b.current_player.toCell

/-- p is an immediate winning point for the player to move: some 5-in-a-line
window has its four other cells already holding the mover's stones and p as
its single empty cell. -/
def isWinPoint (b : Board) (p : Int) : Prop :=
  ∃ st ∈ geoWindows5, WinEvt b st.1 st.2 p

/-- Accumulator extension: every point present in the larger accumulator was
already present or is an empty cell of the board. -/
def AccExt (b : Board) (acc acc2 : WDAcc) : Prop :=
  (∀ r ∈ acc2.theirWins, r ∈ acc.theirWins ∨ b.cells r = Cell.empty) ∧
  (∀ r ∈ acc2.my2m, r ∈ acc.my2m ∨ b.cells r = Cell.empty) ∧
  (∀ r ∈ acc2.their2m, r ∈ acc.their2m ∨ b.cells r = Cell.empty)

theorem AccExt_refl (b : Board) (acc : WDAcc) : AccExt b acc acc :=
  ⟨fun _r hr => Or.inl hr, fun _r hr => Or.inl hr, fun _r hr => Or.inl hr⟩

theorem AccExt_trans (b : Board) (a1 a2 a3 : WDAcc)
    (h1 : AccExt b a1 a2) (h2 : AccExt b a2 a3) : AccExt b a1 a3 := by
  refine ⟨fun r hr => ?_, fun r hr => ?_, fun r hr => ?_⟩
  · rcases h2.1 r hr with h | h
    · exact h1.1 r h
    · exact Or.inr h
  · rcases h2.2.1 r hr with h | h
    · exact h1.2.1 r h
    · exact Or.inr h
  · rcases h2.2.2 r hr with h | h
    · exact h1.2.2 r h
    · exact Or.inr h

theorem lineOf_length (t : Int) : ∀ (n : Nat) (s : Int), (lineOf s t n).length = n := by
  intro n
  induction n with
  | zero => intro s; rfl
  | succ m ih => intro s; simp [lineOf, ih]

theorem lineOf_append (t : Int) : ∀ (n : Nat) (s : Int),
    lineOf s t n ++ [s + (n : Int) * t] = lineOf s t (n + 1) := by
  intro n
  induction n with
  | zero => intro s; simp [lineOf]
  | succ m ih =>
    intro s
    have h2 := ih (s + t)
    simp only [lineOf, List.cons_append]
    have e : s + ((m + 1 : Nat) : Int) * t = s + t + (m : Int) * t := by push_cast; ring
    rw [e, h2]
    rfl

theorem lineOf_getD (t : Int) : ∀ (n j : Nat) (s : Int), j < n →
    (lineOf s t n).getD j 0 = s + (j : Int) * t := by
  intro n
  induction n with
  | zero => intro j s h; omega
  | succ m ih =>
    intro j s h
    cases j with
    | zero => simp [lineOf]
    | succ i =>
      have := ih i (s + t) (by omega)
      simp only [lineOf, List.getD_cons_succ]
      rw [this]
      push_cast
      ring

set_option maxHeartbeats 1000000 in
theorem winLookup_true_facts (v : List RChar) (h : winLookup v = some true) :
    v.length = 5 ∧ firstDotIdx v ∈ List.range 5 ∧
    v.getD (firstDotIdx v) RChar.bdr = RChar.dot ∧
    ∀ i ∈ List.range 5, i ≠ firstDotIdx v → v.getD i RChar.bdr = RChar.x := by
  unfold winLookup at h
  split_ifs at h with h1 h2 h3 h4 h5 h6 h7 h8 h9 h10
  · subst h1; exact ⟨rfl, by decide, by decide, by decide⟩
  · subst h2; exact ⟨rfl, by decide, by decide, by decide⟩
  · subst h3; exact ⟨rfl, by decide, by decide, by decide⟩
  · subst h4; exact ⟨rfl, by decide, by decide, by decide⟩
  · subst h5; exact ⟨rfl, by decide, by decide, by decide⟩
  all_goals simp at h

set_option maxHeartbeats 1000000 in
theorem winLookup_false_facts (v : List RChar) (h : winLookup v = some false) :
    v.length = 5 ∧ firstDotIdx v ∈ List.range 5 ∧
    v.getD (firstDotIdx v) RChar.bdr = RChar.dot := by
  unfold winLookup at h
  split_ifs at h with h1 h2 h3 h4 h5 h6 h7 h8 h9 h10
  · simp at h
  · simp at h
  · simp at h
  · simp at h
  · simp at h
  · subst h6; exact ⟨rfl, by decide, by decide⟩
  · subst h7; exact ⟨rfl, by decide, by decide⟩
  · subst h8; exact ⟨rfl, by decide, by decide⟩
  · subst h9; exact ⟨rfl, by decide, by decide⟩
  · subst h10; exact ⟨rfl, by decide, by decide⟩

set_option maxHeartbeats 1000000 in
theorem threatLookup_facts (v : List RChar) (m : Bool) (back : Nat)
    (h : threatLookup v = some (m, back)) :
    v.length = 6 ∧ 1 ≤ back ∧ back ≤ 4 ∧ v.getD (5 - back) RChar.bdr = RChar.dot := by
  unfold threatLookup at h
  split_ifs at h with h1 h2 h3 h4 h5 h6 h7 h8
  · subst h1
    simp at h
    obtain ⟨hm, hb⟩ := h
    subst hb
    exact ⟨rfl, by decide, by decide, by decide⟩
  · subst h2
    simp at h
    obtain ⟨hm, hb⟩ := h
    subst hb
    exact ⟨rfl, by decide, by decide, by decide⟩
  · subst h3
    simp at h
    obtain ⟨hm, hb⟩ := h
    subst hb
    exact ⟨rfl, by decide, by decide, by decide⟩
  · subst h4
    simp at h
    obtain ⟨hm, hb⟩ := h
    subst hb
    exact ⟨rfl, by decide, by decide, by decide⟩
  · subst h5
    simp at h
    obtain ⟨hm, hb⟩ := h
    subst hb
    exact ⟨rfl, by decide, by decide, by decide⟩
  · subst h6
    simp at h
    obtain ⟨hm, hb⟩ := h
    subst hb
    exact ⟨rfl, by decide, by decide, by decide⟩
  · subst h7
    simp at h
    obtain ⟨hm, hb⟩ := h
    subst hb
    exact ⟨rfl, by decide, by decide, by decide⟩
  · subst h8
    simp at h
    obtain ⟨hm, hb⟩ := h
    subst hb
    exact ⟨rfl, by decide, by decide, by decide⟩

theorem getD_map_rep (b : Board) (l : List Int) (j : Nat) (hj : j < l.length) :
    (l.map (rep b)).getD j RChar.bdr = rep b (l.getD j 0) := by
  induction l generalizing j with
  | nil => simp at hj
  | cons a as ih =>
    cases j with
    | zero => simp
    | succ i => simpa using ih i (by simpa using hj)

theorem lineOf_drop_one (s t : Int) (n : Nat) :
    (lineOf s t (n + 1)).drop 1 = lineOf (s + t) t n := by
  simp [lineOf]

theorem fiveWin_true (b : Board) (ws t : Int)
    (h : winLookup ((lineOf ws t 5).map (rep b)) = some true) :
    WinEvt b ws t
      ((ws + 4 * t) + ((firstDotIdx ((lineOf ws t 5).map (rep b)) : Int) - 4) * t) := by
  obtain ⟨hlen, hjmem, hdot, hx⟩ := winLookup_true_facts _ h
  have hj5 : firstDotIdx ((lineOf ws t 5).map (rep b)) < 5 := by simpa using hjmem
  have hlenl : (lineOf ws t 5).length = 5 := lineOf_length t 5 ws
  have hgd := getD_map_rep b (lineOf ws t 5) (firstDotIdx ((lineOf ws t 5).map (rep b)))
    (by omega)
  have hcell : b.cells (ws + ((firstDotIdx ((lineOf ws t 5).map (rep b)) : Nat) : Int) * t)
      = Cell.empty := by
    apply rep_dot
    rw [← lineOf_getD t 5 _ ws hj5, ← hgd]
    exact hdot
  have hqval : (ws + 4 * t) + ((firstDotIdx ((lineOf ws t 5).map (rep b)) : Int) - 4) * t
      = ws + ((firstDotIdx ((lineOf ws t 5).map (rep b)) : Nat) : Int) * t := by ring
  refine ⟨firstDotIdx ((lineOf ws t 5).map (rep b)), hjmem, hqval, by rwa [hqval], ?_⟩
  intro i himem hij
  have hi5 : i < 5 := by simpa using himem
  have hxi := hx i himem hij
  have hgd2 := getD_map_rep b (lineOf ws t 5) i (by omega)
  apply rep_x
  rw [← lineOf_getD t 5 i ws hi5, ← hgd2]
  exact hxi

theorem fiveWin_false_empty (b : Board) (ws t : Int)
    (h : winLookup ((lineOf ws t 5).map (rep b)) = some false) :
    b.cells ((ws + 4 * t) + ((firstDotIdx ((lineOf ws t 5).map (rep b)) : Int) - 4) * t)
      = Cell.empty := by
  obtain ⟨hlen, hjmem, hdot⟩ := winLookup_false_facts _ h
  have hj5 : firstDotIdx ((lineOf ws t 5).map (rep b)) < 5 := by simpa using hjmem
  have hlenl : (lineOf ws t 5).length = 5 := lineOf_length t 5 ws
  have hgd := getD_map_rep b (lineOf ws t 5) (firstDotIdx ((lineOf ws t 5).map (rep b)))
    (by omega)
  have hqval : (ws + 4 * t) + ((firstDotIdx ((lineOf ws t 5).map (rep b)) : Int) - 4) * t
      = ws + ((firstDotIdx ((lineOf ws t 5).map (rep b)) : Nat) : Int) * t := by ring
  rw [hqval]
  apply rep_dot
  rw [← lineOf_getD t 5 _ ws hj5, ← hgd]
  exact hdot

theorem checkThreatUpd_ext (b : Board) (ws t : Int) (acc : WDAcc) :
    AccExt b acc (checkThreatUpd b (lineOf ws t 6) (ws + 5 * t) t acc) := by
  unfold checkThreatUpd
  cases hl : threatLookup ((lineOf ws t 6).map (rep b)) with
  | none => exact AccExt_refl b acc
  | some r =>
    obtain ⟨m, back⟩ := r
    obtain ⟨hlen, hb1, hb4, hdot⟩ := threatLookup_facts _ m back hl
    have hlenl : (lineOf ws t 6).length = 6 := lineOf_length t 6 ws
    have h56 : 5 - back < 6 := by omega
    have hgd := getD_map_rep b (lineOf ws t 6) (5 - back) (by omega)
    have hcell : b.cells (ws + ((5 - back : Nat) : Int) * t) = Cell.empty := by
      apply rep_dot
      rw [← lineOf_getD t 6 (5 - back) ws h56, ← hgd]
      exact hdot
    have hpt : ws + 5 * t - (back : Int) * t = ws + ((5 - back : Nat) : Int) * t := by
      have hc : ((5 - back : Nat) : Int) = 5 - (back : Int) := by omega
      rw [hc]; ring
    cases m
    · refine ⟨fun r hr => Or.inl hr, fun r hr => Or.inl hr, fun r hr => ?_⟩
      simp only [List.mem_append] at hr
      rcases hr with hr | hr
      · exact Or.inl hr
      · simp at hr
        subst hr
        right
        rw [hpt]
        exact hcell
    · refine ⟨fun r hr => Or.inl hr, fun r hr => ?_, fun r hr => Or.inl hr⟩
      simp only [List.mem_append] at hr
      rcases hr with hr | hr
      · exact Or.inl hr
      · simp at hr
        subst hr
        right
        rw [hpt]
        exact hcell

/-- The tail of the winDetection inner loop once the sliding window has
reached its full 5-cell width starting at W: the length-5 win check. -/
def fiveResolveExpr (b : Board) (t W : Int) (acc1 : WDAcc) : Except Int (List Int × WDAcc) :=
  match winLookup ((lineOf W t 5).map (rep b)) with
  | some true => .error ((W + 4 * t) + ((firstDotIdx ((lineOf W t 5).map (rep b)) : Int) - 4) * t)
  | some false => .ok (lineOf W t 5, { acc1 with
      theirWins := acc1.theirWins ++
        [(W + 4 * t) + ((firstDotIdx ((lineOf W t 5).map (rep b)) : Int) - 4) * t] })
  | none => .ok (lineOf W t 5, acc1)

theorem fiveResolve_cases (b : Board) (t W : Int) (acc1 : WDAcc) :
    (∃ q, fiveResolveExpr b t W acc1 = .error q ∧ WinEvt b W t q) ∨
    (∃ acc2, fiveResolveExpr b t W acc1 = .ok (lineOf W t 5, acc2) ∧ AccExt b acc1 acc2 ∧
      winLookup ((lineOf W t 5).map (rep b)) ≠ some true) := by
  unfold fiveResolveExpr
  cases hwl : winLookup ((lineOf W t 5).map (rep b)) with
  | none => right; exact ⟨acc1, rfl, AccExt_refl b acc1, by simp [hwl]⟩
  | some bb =>
    cases bb
    · right
      refine ⟨_, rfl, ?_, by simp [hwl]⟩
      have hempty := fiveWin_false_empty b W t hwl
      refine ⟨fun r hr => ?_, fun r hr => Or.inl hr, fun r hr => Or.inl hr⟩
      simp only [List.mem_append] at hr
      rcases hr with hr | hr
      · exact Or.inl hr
      · simp at hr
        subst hr
        exact Or.inr hempty
    · left
      exact ⟨_, rfl, fiveWin_true b W t hwl⟩

theorem wdStep_small (b : Board) (t S : Int) (wlen : Nat) (acc : WDAcc) (hw : wlen ≤ 3) :
    wdStep b t (S + (wlen : Int) * t) (lineOf S t wlen) acc
      = .ok (lineOf S t (wlen + 1), acc) := by
  unfold wdStep
  rw [lineOf_append t wlen S]
  have hl : (lineOf S t (wlen + 1)).length = wlen + 1 := lineOf_length t (wlen + 1) S
  have h6 : ¬ (wlen + 1 = 6) := by omega
  have h5 : ¬ (wlen + 1 = 5) := by omega
  simp [hl, h6, h5]

theorem wdStep_four (b : Board) (t S : Int) (acc : WDAcc) :
    wdStep b t (S + 4 * t) (lineOf S t 4) acc = fiveResolveExpr b t S acc := by
  unfold wdStep fiveResolveExpr
  have happ : lineOf S t 4 ++ [S + 4 * t] = lineOf S t 5 := by
    have h := lineOf_append t 4 S
    norm_num at h
    exact h
  rw [happ]
  have h5 : (lineOf S t 5).length = 5 := lineOf_length t 5 S
  simp [h5]

theorem wdStep_five (b : Board) (t S : Int) (acc : WDAcc) :
    wdStep b t (S + 5 * t) (lineOf S t 5) acc
      = fiveResolveExpr b t (S + t) (checkThreatUpd b (lineOf S t 6) (S + 5 * t) t acc) := by
  unfold wdStep fiveResolveExpr
  have happ : lineOf S t 5 ++ [S + 5 * t] = lineOf S t 6 := by
    have h := lineOf_append t 5 S
    norm_num at h
    exact h
  rw [happ]
  have h6 : (lineOf S t 6).length = 6 := lineOf_length t 6 S
  have hdrop : (lineOf S t 6).drop 1 = lineOf (S + t) t 5 := lineOf_drop_one S t 5
  have h5 : (lineOf (S + t) t 5).length = 5 := lineOf_length t 5 (S + t)
  have harith : S + 5 * t = S + t + 4 * t := by ring
  cases hwl : winLookup ((lineOf (S + t) t 5).map (rep b)) with
  | none => simp [h6, hdrop, h5, hwl]
  | some bb =>
    cases bb
    · simp [h6, hdrop, h5, hwl, harith]
    · simp [h6, hdrop, h5, hwl, harith]

/-- Full analysis of one winDetection loop iteration: the window of processed
points starts at offset k of the line, has width wlen ≤ 5, and the next point
is at offset k + wlen. Either the iteration aborts with a win event on the
5-window ending at the current point, or it continues with the slid window,
only adding empty points to the accumulators; in the latter case the checked
5-window (when one was complete) was not a confirmed own win. -/
theorem wdStep_spec (b : Board) (t s : Int) (k wlen : Nat) (acc : WDAcc) (hw : wlen ≤ 5) :
    (∃ q, wdStep b t (s + ((k + wlen : Nat) : Int) * t) (lineOf (s + (k : Int) * t) t wlen) acc
        = .error q ∧ 4 ≤ wlen ∧ WinEvt b (s + ((k + wlen - 4 : Nat) : Int) * t) t q) ∨
    (∃ acc2, wdStep b t (s + ((k + wlen : Nat) : Int) * t) (lineOf (s + (k : Int) * t) t wlen) acc
        = .ok (lineOf (s + ((k + wlen + 1 - min (wlen + 1) 5 : Nat) : Int) * t) t
            (min (wlen + 1) 5), acc2)
      ∧ AccExt b acc acc2
      ∧ (5 ≤ wlen + 1 →
          winLookup ((lineOf (s + ((k + wlen + 1 - 5 : Nat) : Int) * t) t 5).map (rep b))
            ≠ some true)) := by
  by_cases h5 : wlen = 5
  · subst h5
    have hP : s + ((k + 5 : Nat) : Int) * t = (s + (k : Int) * t) + 5 * t := by
      push_cast; ring
    rw [hP, wdStep_five b t (s + (k : Int) * t) acc]
    have hextT := checkThreatUpd_ext b (s + (k : Int) * t) t acc
    rcases fiveResolve_cases b t (s + (k : Int) * t + t)
        (checkThreatUpd b (lineOf (s + (k : Int) * t) t 6) ((s + (k : Int) * t) + 5 * t) t acc)
      with ⟨q, heq, hevt⟩ | ⟨acc2, heq, hext, hnt⟩
    · left
      refine ⟨q, heq, by omega, ?_⟩
      have e1 : ((k + 5 - 4 : Nat) : Int) = (k : Int) + 1 := by omega
      rw [e1, show s + ((k : Int) + 1) * t = s + (k : Int) * t + t by ring]
      exact hevt
    · right
      have emin : min (5 + 1) 5 = 5 := rfl
      have e2 : ((k + 5 + 1 - min (5 + 1) 5 : Nat) : Int) = (k : Int) + 1 := by
        rw [emin]; omega
      have e3 : s + ((k + 5 + 1 - min (5 + 1) 5 : Nat) : Int) * t = s + (k : Int) * t + t := by
        rw [e2]; ring
      have e4 : ((k + 5 + 1 - 5 : Nat) : Int) = (k : Int) + 1 := by omega
      refine ⟨acc2, ?_, AccExt_trans b acc _ acc2 hextT hext, ?_⟩
      · rw [heq, emin, e4, show s + ((k : Int) + 1) * t = s + (k : Int) * t + t by ring]
      · intro _
        rw [show s + ((k + 5 + 1 - 5 : Nat) : Int) * t = s + (k : Int) * t + t by rw [e4]; ring]
        exact hnt
  · by_cases h4 : wlen = 4
    · subst h4
      have hP : s + ((k + 4 : Nat) : Int) * t = (s + (k : Int) * t) + 4 * t := by
        push_cast; ring
      rw [hP, wdStep_four b t (s + (k : Int) * t) acc]
      rcases fiveResolve_cases b t (s + (k : Int) * t) acc
        with ⟨q, heq, hevt⟩ | ⟨acc2, heq, hext, hnt⟩
      · left
        refine ⟨q, heq, by omega, ?_⟩
        have e1 : ((k + 4 - 4 : Nat) : Int) = (k : Int) := by omega
        rw [e1]
        exact hevt
      · right
        have emin : min (4 + 1) 5 = 5 := rfl
        have e2 : ((k + 4 + 1 - min (4 + 1) 5 : Nat) : Int) = (k : Int) := by
          rw [emin]; omega
        have e4 : ((k + 4 + 1 - 5 : Nat) : Int) = (k : Int) := by omega
        refine ⟨acc2, ?_, hext, ?_⟩
        · rw [heq, emin, e4]
        · intro _
          rw [e4]
          exact hnt
    · have hle : wlen ≤ 3 := by omega
      have hP : s + ((k + wlen : Nat) : Int) * t = (s + (k : Int) * t) + (wlen : Int) * t := by
        push_cast; ring
      rw [hP, wdStep_small b t (s + (k : Int) * t) wlen acc hle]
      right
      have emin : min (wlen + 1) 5 = wlen + 1 := by omega
      have e2 : (k + wlen + 1 - (wlen + 1) : Nat) = k := by omega
      refine ⟨acc, ?_, AccExt_refl b acc, ?_⟩
      · rw [emin, e2]
      · intro hcon
        exact absurd hcon (by omega)

/-- Invariant run of one line scan: processing the rest of a line whose
processed window starts at offset k and has width wlen. Conclusions: any
abort is a win event on a geometrically valid window; a normal completion
only extends the accumulators with empty cells; and if an own-win 5-window
is still to be completed, the scan aborts. -/
theorem scanLine_run (b : Board) (t s : Int) :
    ∀ (plen k wlen : Nat) (acc : WDAcc), wlen ≤ 5 →
      (∀ q, scanLine b t (lineOf (s + ((k + wlen : Nat) : Int) * t) t plen)
          (lineOf (s + (k : Int) * t) t wlen) acc = .error q →
        ∃ i : Nat, i + 5 ≤ k + wlen + plen ∧ WinEvt b (s + (i : Int) * t) t q) ∧
      (∀ acc2, scanLine b t (lineOf (s + ((k + wlen : Nat) : Int) * t) t plen)
          (lineOf (s + (k : Int) * t) t wlen) acc = .ok acc2 →
        AccExt b acc acc2) ∧
      (∀ i : Nat, k ≤ i → k + wlen ≤ i + 4 → i + 5 ≤ k + wlen + plen →
        winLookup ((lineOf (s + (i : Int) * t) t 5).map (rep b)) = some true →
        ∃ q, scanLine b t (lineOf (s + ((k + wlen : Nat) : Int) * t) t plen)
          (lineOf (s + (k : Int) * t) t wlen) acc = .error q) := by
  intro plen
  induction plen with
  | zero =>
    intro k wlen acc hw
    refine ⟨?_, ?_, ?_⟩
    · intro q hq
      simp [lineOf, scanLine] at hq
    · intro acc2 hq
      simp only [lineOf, scanLine] at hq
      injection hq with h
      subst h
      exact AccExt_refl b acc
    · intro i hik hi4 hi5 hwl
      omega
  | succ n ih =>
    intro k wlen acc hw
    have hcons : lineOf (s + ((k + wlen : Nat) : Int) * t) t (n + 1)
        = (s + ((k + wlen : Nat) : Int) * t) ::
          lineOf (s + ((k + wlen : Nat) : Int) * t + t) t n := rfl
    have hnext : s + ((k + wlen : Nat) : Int) * t + t
        = s + (((k + wlen + 1 - min (wlen + 1) 5) + min (wlen + 1) 5 : Nat) : Int) * t := by
      have : (k + wlen + 1 - min (wlen + 1) 5) + min (wlen + 1) 5 = k + wlen + 1 := by omega
      rw [this]
      push_cast
      ring
    rcases wdStep_spec b t s k wlen acc hw with ⟨q0, heq, hw4, hevt⟩ |
      ⟨acc2, heq, hext, hnT⟩
    · -- the step aborts immediately
      have hrun : scanLine b t (lineOf (s + ((k + wlen : Nat) : Int) * t) t (n + 1))
          (lineOf (s + (k : Int) * t) t wlen) acc = .error q0 := by
        rw [hcons]
        simp only [scanLine, heq]
      refine ⟨?_, ?_, ?_⟩
      · intro q hq
        rw [hrun] at hq
        injection hq with h
        subst h
        exact ⟨k + wlen - 4, by omega, hevt⟩
      · intro acc2 hq
        rw [hrun] at hq
        cases hq
      · intro i hik hi4 hi5 hwl
        exact ⟨q0, hrun⟩
    · -- the step continues with the slid window
      have hw2 : min (wlen + 1) 5 ≤ 5 := by omega
      have ihs := ih (k + wlen + 1 - min (wlen + 1) 5) (min (wlen + 1) 5) acc2 hw2
      have hrun : scanLine b t (lineOf (s + ((k + wlen : Nat) : Int) * t) t (n + 1))
          (lineOf (s + (k : Int) * t) t wlen) acc
          = scanLine b t (lineOf (s + (((k + wlen + 1 - min (wlen + 1) 5)
              + min (wlen + 1) 5 : Nat) : Int) * t) t n)
            (lineOf (s + ((k + wlen + 1 - min (wlen + 1) 5 : Nat) : Int) * t) t
              (min (wlen + 1) 5)) acc2 := by
        rw [hcons]
        simp only [scanLine, heq]
        rw [← hnext]
      refine ⟨?_, ?_, ?_⟩
      · intro q hq
        rw [hrun] at hq
        obtain ⟨i, hibound, hievt⟩ := ihs.1 q hq
        exact ⟨i, by omega, hievt⟩
      · intro acc3 hq
        rw [hrun] at hq
        exact AccExt_trans b acc acc2 acc3 hext (ihs.2.1 acc3 hq)
      · intro i hik hi4 hi5 hwl
        by_cases hcur : i + 4 = k + wlen
        · -- the window would have been confirmed by this very step
          exfalso
          have h51 : 5 ≤ wlen + 1 := by omega
          have hieq : i = k + wlen + 1 - 5 := by omega
          apply hnT h51
          rw [← hieq]
          exact hwl
        · have hge : k + wlen + 1 - min (wlen + 1) 5 ≤ i := by omega
          have hi4' : (k + wlen + 1 - min (wlen + 1) 5) + min (wlen + 1) 5 ≤ i + 4 := by
            omega
          have hi5' : i + 5 ≤ (k + wlen + 1 - min (wlen + 1) 5) + min (wlen + 1) 5 + n := by
            omega
          obtain ⟨q, hq⟩ := ihs.2.2 i hge hi4' hi5' hwl
          exact ⟨q, by rw [hrun]; exact hq⟩

/-- A line spec is good when all its complete 5-windows are among the
geometric 5-windows of the board. -/
def GoodSpec (x : Int × Int × Nat) : Prop :=
  ∀ i : Nat, i + 5 ≤ x.2.2 → (x.1 + (i : Int) * x.2.1, x.2.1) ∈ geoWindows5

theorem wdLineSpecs_good : ∀ x ∈ wdLineSpecs, GoodSpec x := by
  have hdec : ∀ x ∈ wdLineSpecs, ∀ i ∈ List.range 3, i + 5 ≤ x.2.2 →
      (x.1 + (i : Int) * x.2.1, x.2.1) ∈ geoWindows5 := by decide
  have hlen : ∀ x ∈ wdLineSpecs, x.2.2 ≤ 7 := by decide
  intro x hx i hi
  have h7 := hlen x hx
  exact hdec x hx i (by simp only [List.mem_range]; omega) hi

theorem geo_covered : ∀ st ∈ geoWindows5, ∃ x ∈ wdLineSpecs, x.2.1 = st.2 ∧
    ∃ i ∈ List.range 3, st.1 = x.1 + (i : Int) * x.2.1 ∧ i + 5 ≤ x.2.2 := by decide

/-- Top-level form of a single line scan, starting with the empty window. -/
theorem scanLine_top (b : Board) (t s : Int) (n : Nat) (acc : WDAcc) :
    (∀ q, scanLine b t (lineOf s t n) [] acc = .error q →
      ∃ i : Nat, i + 5 ≤ n ∧ WinEvt b (s + (i : Int) * t) t q) ∧
    (∀ acc2, scanLine b t (lineOf s t n) [] acc = .ok acc2 → AccExt b acc acc2) ∧
    (∀ i : Nat, i + 5 ≤ n →
      winLookup ((lineOf (s + (i : Int) * t) t 5).map (rep b)) = some true →
      ∃ q, scanLine b t (lineOf s t n) [] acc = .error q) := by
  have h := scanLine_run b t s n 0 0 acc (by omega)
  have e0 : lineOf (s + ((0 + 0 : Nat) : Int) * t) t n = lineOf s t n := by norm_num
  have e1 : lineOf (s + ((0 : Nat) : Int) * t) t 0 = ([] : List Int) := rfl
  rw [e0, e1] at h
  refine ⟨?_, ?_, ?_⟩
  · intro q hq
    obtain ⟨i, hi, hevt⟩ := h.1 q hq
    exact ⟨i, by omega, hevt⟩
  · intro acc2 hq
    exact h.2.1 acc2 hq
  · intro i hi hwl
    exact h.2.2 i (by omega) (by omega) (by omega) hwl

/-- Running the line scans: any abort is a win event on a geometric window,
normal completion only adds empty cells, and a pending own-win window on any
scanned line forces an abort. -/
theorem runLines_run (b : Board) : ∀ (specs : List (Int × Int × Nat)) (acc : WDAcc),
    (∀ x ∈ specs, GoodSpec x) →
    (∀ q, runLines b specs acc = .error q → isWinPoint b q) ∧
    (∀ acc2, runLines b specs acc = .ok acc2 → AccExt b acc acc2) ∧
    (∀ x ∈ specs, ∀ i : Nat, i + 5 ≤ x.2.2 →
      winLookup ((lineOf (x.1 + (i : Int) * x.2.1) x.2.1 5).map (rep b)) = some true →
      ∃ q, runLines b specs acc = .error q) := by
  intro specs
  induction specs with
  | nil =>
    intro acc hgood
    refine ⟨?_, ?_, ?_⟩
    · intro q hq
      simp [runLines] at hq
    · intro acc2 hq
      simp only [runLines] at hq
      injection hq with h
      subst h
      exact AccExt_refl b acc
    · intro x hx
      simp at hx
  | cons x rest ih =>
    intro acc hgood
    have hxgood : GoodSpec x := hgood x (List.mem_cons_self x rest)
    have hsl := scanLine_top b x.2.1 x.1 x.2.2 acc
    cases hsc : scanLine b x.2.1 (lineOf x.1 x.2.1 x.2.2) [] acc with
    | error q0 =>
      have hrun : runLines b (x :: rest) acc = .error q0 := by
        simp only [runLines, hsc]
      have hq0win : isWinPoint b q0 := by
        obtain ⟨i, hi, hevt⟩ := hsl.1 q0 hsc
        exact ⟨(x.1 + (i : Int) * x.2.1, x.2.1), hxgood i hi, hevt⟩
      refine ⟨?_, ?_, ?_⟩
      · intro q hq
        rw [hrun] at hq
        injection hq with hh
        subst hh
        exact hq0win
      · intro acc2 hq
        rw [hrun] at hq
        cases hq
      · intro y hy i hi hwl
        exact ⟨q0, hrun⟩
    | ok acc2 =>
      have hrun : runLines b (x :: rest) acc = runLines b rest acc2 := by
        simp only [runLines, hsc]
      have ihr := ih acc2 (fun y hy => hgood y (List.mem_cons_of_mem x hy))
      refine ⟨?_, ?_, ?_⟩
      · intro q hq
        rw [hrun] at hq
        exact ihr.1 q hq
      · intro acc3 hq
        rw [hrun] at hq
        exact AccExt_trans b acc acc2 acc3 (hsl.2.1 acc2 hsc) (ihr.2.1 acc3 hq)
      · intro y hy i hi hwl
        rcases List.mem_cons.mp hy with hyx | hyr
        · subst hyx
          obtain ⟨q, hq⟩ := hsl.2.2 i hi hwl
          rw [hq] at hsc
          cases hsc
        · obtain ⟨q, hq⟩ := ihr.2.2 y hyr i hi hwl
          exact ⟨q, by rw [hrun]; exact hq⟩

/-- The own-win 5-pattern with the single empty cell at index j. -/
def xKey (j : Nat) : List RChar :=
  (List.range 5).map (fun i => if i = j then RChar.dot else RChar.x)

theorem winEvt_lookup (b : Board) (ws t p : Int) (h : WinEvt b ws t p) :
    winLookup ((lineOf ws t 5).map (rep b)) = some true := by
  obtain ⟨j, hj, hp, hemp, hx⟩ := h
  have hj5 : j < 5 := by simpa using hj
  have hv : (lineOf ws t 5).map (rep b) = xKey j := by
    apply List.ext_getElem
    · simp [xKey, lineOf_length]
    · intro i h1 h2
      have hi5 : i < 5 := by
        rw [List.length_map, lineOf_length] at h1
        exact h1
      have hl5 : i < (lineOf ws t 5).length := by rw [lineOf_length]; exact hi5
      have hmap : ((lineOf ws t 5).map (rep b))[i] = rep b ((lineOf ws t 5)[i]) := by
        simp
      have hgd : (lineOf ws t 5)[i] = ws + (i : Int) * t := by
        rw [← List.getD_eq_getElem (lineOf ws t 5) 0 hl5]
        exact lineOf_getD t 5 i ws hi5
      have hkey : (xKey j)[i] = if i = j then RChar.dot else RChar.x := by
        simp [xKey]
      rw [hmap, hgd, hkey]
      by_cases hij : i = j
      · subst hij
        simp only [if_pos rfl]
        apply rep_of_empty
        rw [← hp]
        exact hemp
      · rw [if_neg hij]
        exact rep_of_cp b _ (hx i (by simpa using hi5) hij)
  rw [hv]
  interval_cases j <;> decide

/-- C3: whenever the player to move has an immediate winning point, the
full-board scan `winDetection` returns with exactly one winning point in the
own-wins bucket and the other three buckets empty. -/
theorem C3_winDetection_early_exit (b : Board) (h : ∃ p, isWinPoint b p) :
    ∃ p, winDetection b = ([p], [], [], []) ∧ isWinPoint b p := by
  obtain ⟨p0, st, hstmem, hevt⟩ := h
  have hlook := winEvt_lookup b st.1 st.2 p0 hevt
  obtain ⟨x, hxmem, hxt, i, hirange, hist, hi5⟩ := geo_covered st hstmem
  have hlook2 : winLookup ((lineOf (x.1 + (i : Int) * x.2.1) x.2.1 5).map (rep b))
      = some true := by
    rw [← hist, hxt]
    exact hlook
  have hrr := runLines_run b wdLineSpecs ⟨[], [], []⟩ wdLineSpecs_good
  obtain ⟨q, hq⟩ := hrr.2.2 x hxmem i hi5 hlook2
  refine ⟨q, ?_, hrr.1 q hq⟩
  unfold winDetection
  rw [hq]

instance (b : Board) (ws t q : Int) : Decidable (WinEvt b ws t q) := by
  unfold WinEvt
  infer_instance

instance (b : Board) (p : Int) : Decidable (isWinPoint b p) := by
  unfold isWinPoint
  infer_instance

/-- Board with four Black stones at 9-12 and Black to move: 13 completes five. -/
def cb3 : Board := mkBoard (fun p => if p ≤ 12 then Cell.black else Cell.empty) Player.black

/-- C3 witness: with Black stones on 9-12, an immediate winning point exists
and `winDetection` returns a single winning point with empty other buckets. -/
theorem C3_winDetection_early_exit_witness :
    (∃ p, isWinPoint cb3 p) ∧
    (∃ p, winDetection cb3 = ([p], [], [], []) ∧ isWinPoint cb3 p) :=
  ⟨⟨13, by decide⟩, C3_winDetection_early_exit cb3 ⟨13, by decide⟩⟩

/-- Lookup in tier 0 of `patternList` in `list_solve_point` (simple_board.py
line 544): immediate own-win 5-patterns with their backward offsets. -/
def lspLookup0 (v : List RChar) : Option (List Nat) :=
  if v = [.x,.x,.x,.x,.dot] then some [0]
  else if v = [.x,.x,.x,.dot,.x] then some [1]
  else if v = [.x,.x,.dot,.x,.x] then some [2]
  else if v = [.x,.dot,.x,.x,.x] then some [3]
  else if v = [.dot,.x,.x,.x,.x] then some [4]
  else none

/-- Tier 1: urgent blocks of opponent win 5-patterns. -/
def lspLookup1 (v : List RChar) : Option (List Nat) :=
  if v = [.o,.o,.o,.o,.dot] then some [0]
  else if v = [.o,.o,.o,.dot,.o] then some [1]
  else if v = [.o,.o,.dot,.o,.o] then some [2]
  else if v = [.o,.dot,.o,.o,.o] then some [3]
  else if v = [.dot,.o,.o,.o,.o] then some [4]
  else none

/-- Tier 2: own make-open-four 6-patterns. -/
def lspLookup2 (v : List RChar) : Option (List Nat) :=
  if v = [.dot,.x,.x,.x,.dot,.dot] then some [1]
  else if v = [.dot,.dot,.x,.x,.x,.dot] then some [4]
  else if v = [.dot,.x,.x,.dot,.x,.dot] then some [2]
  else if v = [.dot,.x,.dot,.x,.x,.dot] then some [3]
  else none

/-- Tier 3: block the opponent open-four 6-patterns. -/
def lspLookup3 (v : List RChar) : Option (List Nat) :=
  if v = [.dot,.o,.o,.o,.dot,.dot] then some [1, 5]
  else if v = [.dot,.dot,.o,.o,.o,.dot] then some [0, 4]
  else if v = [.dot,.o,.o,.dot,.o,.dot] then some [2]
  else if v = [.dot,.o,.dot,.o,.o,.dot] then some [3]
  else none

/-- The four move buckets (Python sets) of `list_solve_point`. -/
structure MS where
  t0 : List Int
  t1 : List Int
  t2 : List Int
  t3 : List Int
deriving DecidableEq

/-- Set-like insertion (`set.add`). -/
def addPt (l : List Int) (q : Int) : List Int := if q ∈ l then l else l ++ [q]

/-- The bucket update of one `check_pattern` call (simple_board.py lines
479-484): the first tier whose dictionary holds the accumulated string
receives the points `point - step * (dis + 1)`. -/
def cpUpdate (ms : MS) (pt s : Int) (acc : List RChar) : MS :=
  match lspLookup0 acc with
  | some ds => { ms with
      t0 := ds.foldl (fun l (dis : Nat) => addPt l (pt - s * ((dis : Int) + 1))) ms.t0 }
  | none =>
    match lspLookup1 acc with
    | some ds => { ms with
        t1 := ds.foldl (fun l (dis : Nat) => addPt l (pt - s * ((dis : Int) + 1))) ms.t1 }
    | none =>
      match lspLookup2 acc with
      | some ds => { ms with
          t2 := ds.foldl (fun l (dis : Nat) => addPt l (pt - s * ((dis : Int) + 1))) ms.t2 }
      | none =>
        match lspLookup3 acc with
        | some ds => { ms with
            t3 := ds.foldl (fun l (dis : Nat) => addPt l (pt - s * ((dis : Int) + 1))) ms.t3 }
        | none => ms

/-- `check_pattern` (simple_board.py lines 478-500): update the buckets from
the accumulated string, stop when the point leaves the array bounds or the
string reaches length 9, otherwise append the current cell and recurse one
step along the direction. The fuel only bounds the recursion depth; the top
call with fuel 10 never exhausts it because the string grows each step. -/
def check_pattern (b : Board) (s : Int) : Nat → Int → List RChar → MS → MS
  | 0, _, _, ms => ms
  | fuel + 1, pt, acc, ms =>
    let ms1 := cpUpdate ms pt s acc
    if ¬ (0 ≤ pt ∧ pt < 73) ∨ acc.length = 9 then ms1
    else check_pattern b s fuel (pt + s) (acc ++ [rep b pt]) ms1

/-- The scan anchors: all indices whose cell is not BORDER, ascending
(`where1d(self.board != BORDER)`, simple_board.py line 550). -/
def lspAnchors (b : Board) : List Int :=
  boardRange.filter (fun p => b.cells p ≠ Cell.border)

/-- The four scan directions as single-index steps: (1,0) -> 1, (0,1) -> 8,
(1,1) -> 9, (-1,1) -> 7 (simple_board.py lines 546-547). -/
def lspDirs : List Int := [1, 8, 9, 7]

/-- The full recursive scan of `list_solve_point`: every non-border anchor,
every direction (the early-exit flag is never set in the source). -/
def lspScan (b : Board) : MS :=
  (lspAnchors b).foldl
    (fun ms p => lspDirs.foldl (fun ms2 s => check_pattern b s 10 p [] ms2) ms)
    ⟨[], [], [], []⟩

/-- `list_solve_point` (simple_board.py lines 535-562): the first non-empty
bucket in priority order, or None. -/
def list_solve_point (b : Board) : Option (List Int) :=
  if (lspScan b).t0 ≠ [] then some (lspScan b).t0
  else if (lspScan b).t1 ≠ [] then some (lspScan b).t1
  else if (lspScan b).t2 ≠ [] then some (lspScan b).t2
  else if (lspScan b).t3 ≠ [] then some (lspScan b).t3
  else none

theorem lspLookup0_none (v : List RChar) (h : v.length ≠ 5) : lspLookup0 v = none := by
  unfold lspLookup0
  split_ifs with h1 h2 h3 h4 h5 <;> first
    | rfl
    | (exfalso; apply h; subst_vars; rfl)

theorem lspLookup1_none (v : List RChar) (h : v.length ≠ 5) : lspLookup1 v = none := by
  unfold lspLookup1
  split_ifs with h1 h2 h3 h4 h5 <;> first
    | rfl
    | (exfalso; apply h; subst_vars; rfl)

theorem lspLookup2_none (v : List RChar) (h : v.length ≠ 6) : lspLookup2 v = none := by
  unfold lspLookup2
  split_ifs with h1 h2 h3 h4 <;> first
    | rfl
    | (exfalso; apply h; subst_vars; rfl)

theorem lspLookup3_none (v : List RChar) (h : v.length ≠ 6) : lspLookup3 v = none := by
  unfold lspLookup3
  split_ifs with h1 h2 h3 h4 <;> first
    | rfl
    | (exfalso; apply h; subst_vars; rfl)

theorem cpUpdate_other (ms : MS) (pt s : Int) (acc : List RChar)
    (h5 : acc.length ≠ 5) (h6 : acc.length ≠ 6) : cpUpdate ms pt s acc = ms := by
  unfold cpUpdate
  rw [lspLookup0_none acc h5, lspLookup1_none acc h5, lspLookup2_none acc h6,
    lspLookup3_none acc h6]

set_option maxHeartbeats 1000000 in
theorem lspLookup0_facts (v : List RChar) (ds : List Nat) (h : lspLookup0 v = some ds) :
    v.length = 5 ∧ ∃ d : Nat, ds = [d] ∧ d ≤ 4 ∧ v.getD (4 - d) RChar.bdr = RChar.dot ∧
      ∀ i ∈ List.range 5, i ≠ 4 - d → v.getD i RChar.bdr = RChar.x := by
  unfold lspLookup0 at h
  split_ifs at h with h1 h2 h3 h4 h5 <;>
    (subst_vars; injection h with hds; subst hds)
  · exact ⟨rfl, 0, rfl, by decide, by decide, by decide⟩
  · exact ⟨rfl, 1, rfl, by decide, by decide, by decide⟩
  · exact ⟨rfl, 2, rfl, by decide, by decide, by decide⟩
  · exact ⟨rfl, 3, rfl, by decide, by decide, by decide⟩
  · exact ⟨rfl, 4, rfl, by decide, by decide, by decide⟩

set_option maxHeartbeats 1000000 in
theorem lspLookup1_facts (v : List RChar) (ds : List Nat) (h : lspLookup1 v = some ds) :
    v.length = 5 ∧ ∃ d : Nat, ds = [d] ∧ d ≤ 4 ∧ v.getD (4 - d) RChar.bdr = RChar.dot := by
  unfold lspLookup1 at h
  split_ifs at h with h1 h2 h3 h4 h5 <;>
    (subst_vars; injection h with hds; subst hds)
  · exact ⟨rfl, 0, rfl, by decide, by decide⟩
  · exact ⟨rfl, 1, rfl, by decide, by decide⟩
  · exact ⟨rfl, 2, rfl, by decide, by decide⟩
  · exact ⟨rfl, 3, rfl, by decide, by decide⟩
  · exact ⟨rfl, 4, rfl, by decide, by decide⟩

set_option maxHeartbeats 1000000 in
theorem lspLookup2_facts (v : List RChar) (ds : List Nat) (h : lspLookup2 v = some ds) :
    v.length = 6 ∧ ∀ d ∈ ds, d ≤ 5 ∧ v.getD (5 - d) RChar.bdr = RChar.dot := by
  unfold lspLookup2 at h
  split_ifs at h with h1 h2 h3 h4 <;>
    (subst_vars; injection h with hds; subst hds)
  · exact ⟨rfl, by decide⟩
  · exact ⟨rfl, by decide⟩
  · exact ⟨rfl, by decide⟩
  · exact ⟨rfl, by decide⟩

set_option maxHeartbeats 1000000 in
theorem lspLookup3_facts (v : List RChar) (ds : List Nat) (h : lspLookup3 v = some ds) :
    v.length = 6 ∧ ∀ d ∈ ds, d ≤ 5 ∧ v.getD (5 - d) RChar.bdr = RChar.dot := by
  unfold lspLookup3 at h
  split_ifs at h with h1 h2 h3 h4 <;>
    (subst_vars; injection h with hds; subst hds)
  · exact ⟨rfl, by decide⟩
  · exact ⟨rfl, by decide⟩
  · exact ⟨rfl, by decide⟩
  · exact ⟨rfl, by decide⟩

theorem mem_addPt (l : List Int) (q r : Int) (h : r ∈ addPt l q) : r ∈ l ∨ r = q := by
  unfold addPt at h
  split_ifs at h with hq
  · exact Or.inl h
  · rcases List.mem_append.mp h with h | h
    · exact Or.inl h
    · simp at h
      exact Or.inr h

theorem addPt_self (l : List Int) (q : Int) : q ∈ addPt l q := by
  unfold addPt
  split_ifs with hq
  · exact hq
  · simp

theorem addPt_sub (l : List Int) (q : Int) : l ⊆ addPt l q := by
  unfold addPt
  split_ifs with hq
  · exact fun r hr => hr
  · exact fun r hr => List.mem_append.mpr (Or.inl hr)

theorem foldl_addPt_sub (f : Nat → Int) :
    ∀ (ds : List Nat) (l : List Int), l ⊆ ds.foldl (fun acc d => addPt acc (f d)) l := by
  intro ds
  induction ds with
  | nil => intro l; exact fun r hr => hr
  | cons d rest ih =>
    intro l
    exact fun r hr => ih (addPt l (f d)) (addPt_sub l (f d) hr)

theorem foldl_addPt_mem (f : Nat → Int) :
    ∀ (ds : List Nat) (l : List Int) (r : Int),
      r ∈ ds.foldl (fun acc d => addPt acc (f d)) l → r ∈ l ∨ ∃ d ∈ ds, r = f d := by
  intro ds
  induction ds with
  | nil => intro l r hr; exact Or.inl hr
  | cons d rest ih =>
    intro l r hr
    rcases ih (addPt l (f d)) r hr with h | h
    · rcases mem_addPt l (f d) r h with h2 | h2
      · exact Or.inl h2
      · exact Or.inr ⟨d, by simp, h2⟩
    · obtain ⟨d2, hd2, he⟩ := h
      exact Or.inr ⟨d2, by simp [hd2], he⟩

/-- Bucketwise containment of move sets. -/
def MSsub (m1 m2 : MS) : Prop :=
  m1.t0 ⊆ m2.t0 ∧ m1.t1 ⊆ m2.t1 ∧ m1.t2 ⊆ m2.t2 ∧ m1.t3 ⊆ m2.t3

theorem MSsub_refl (m : MS) : MSsub m m :=
  ⟨fun _ h => h, fun _ h => h, fun _ h => h, fun _ h => h⟩

theorem MSsub_trans (m1 m2 m3 : MS) (h1 : MSsub m1 m2) (h2 : MSsub m2 m3) : MSsub m1 m3 :=
  ⟨fun _r hr => h2.1 (h1.1 hr), fun _r hr => h2.2.1 (h1.2.1 hr),
   fun _r hr => h2.2.2.1 (h1.2.2.1 hr), fun _r hr => h2.2.2.2 (h1.2.2.2 hr)⟩

theorem cpUpdate_sub (ms : MS) (pt s : Int) (acc : List RChar) :
    MSsub ms (cpUpdate ms pt s acc) := by
  unfold cpUpdate
  cases lspLookup0 acc with
  | some ds => exact ⟨foldl_addPt_sub _ ds ms.t0, fun _ h => h, fun _ h => h, fun _ h => h⟩
  | none =>
    cases lspLookup1 acc with
    | some ds => exact ⟨fun _ h => h, foldl_addPt_sub _ ds ms.t1, fun _ h => h, fun _ h => h⟩
    | none =>
      cases lspLookup2 acc with
      | some ds => exact ⟨fun _ h => h, fun _ h => h, foldl_addPt_sub _ ds ms.t2, fun _ h => h⟩
      | none =>
        cases lspLookup3 acc with
        | some ds =>
          exact ⟨fun _ h => h, fun _ h => h, fun _ h => h, foldl_addPt_sub _ ds ms.t3⟩
        | none => exact MSsub_refl ms

theorem check_pattern_sub (b : Board) (s : Int) :
    ∀ (fuel : Nat) (pt : Int) (acc : List RChar) (ms : MS),
      MSsub ms (check_pattern b s fuel pt acc ms) := by
  intro fuel
  induction fuel with
  | zero => intro pt acc ms; exact MSsub_refl ms
  | succ n ih =>
    intro pt acc ms
    simp only [check_pattern]
    split
    · exact cpUpdate_sub ms pt s acc
    · exact MSsub_trans _ _ _ (cpUpdate_sub ms pt s acc) (ih (pt + s) (acc ++ [rep b pt]) _)

theorem geo_steps : ∀ st ∈ geoWindows5, st.2 = 1 ∨ st.2 = 8 ∨ st.2 = 9 ∨ st.2 = 7 := by
  decide

theorem geo_start_bounds : ∀ st ∈ geoWindows5, 9 ≤ st.1 ∧ st.1 ≤ 63 := by decide

theorem interior_bounds (p : Int) (h : isInterior p = true) : 0 ≤ p ∧ p < 73 := by
  have h2 : 9 ≤ p ∧ p ≤ 63 ∧ p % 8 ≠ 0 := by simpa [isInterior] using h
  omega

theorem nonborder_interior (b : Board) (hWF : WF b) (p : Int)
    (h : b.cells p ≠ Cell.border) : isInterior p = true := by
  by_cases hi : isInterior p = true
  · exact hi
  · exact absurd (hWF p (by simpa using hi)) h

theorem winEvt_empty (b : Board) (ws t p : Int) (h : WinEvt b ws t p) :
    b.cells p = Cell.empty := by
  obtain ⟨j, hj, hp, hemp, hx⟩ := h
  exact hemp

theorem winEvt_nonborder (b : Board) (ws t p : Int) (h : WinEvt b ws t p) :
    ∀ i : Nat, i < 5 → b.cells (ws + (i : Int) * t) ≠ Cell.border := by
  obtain ⟨j, hj, hp, hemp, hx⟩ := h
  intro i hi
  by_cases hij : i = j
  · subst hij
    rw [← hp, hemp]
    simp
  · rw [hx i (by simpa using hi) hij]
    cases b.current_player <;> simp [Player.toCell]

theorem interiorWindow (a s : Int) (hs : s = 1 ∨ s = 8 ∨ s = 9 ∨ s = 7)
    (h : ∀ i : Nat, i < 5 → isInterior (a + (i : Int) * s) = true) :
    (a, s) ∈ geoWindows5 := by
  have hdec : ∀ a0 ∈ List.range 73, ∀ s0 ∈ lspDirs,
      (∀ i ∈ List.range 5, isInterior ((a0 : Int) + (i : Int) * s0) = true) →
      ((a0 : Int), s0) ∈ geoWindows5 := by decide
  have h0 := h 0 (by norm_num)
  norm_num at h0
  have hb := interior_bounds a h0
  have ha : a = ((a.toNat : Nat) : Int) := by omega
  have hmem : a.toNat ∈ List.range 73 := by
    simp only [List.mem_range]
    omega
  have hsmem : s ∈ lspDirs := by rcases hs with h1 | h1 | h1 | h1 <;> simp [lspDirs, h1]
  have hres := hdec a.toNat hmem s hsmem ?_
  · rwa [← ha] at hres
  · intro i hi
    rw [← ha]
    exact h i (by simpa using hi)

theorem winEvt_key (b : Board) (ws t p : Int) (h : WinEvt b ws t p) :
    ∃ j : Nat, j < 5 ∧ p = ws + (j : Int) * t ∧
      (lineOf ws t 5).map (rep b) = xKey j := by
  obtain ⟨j, hj, hp, hemp, hx⟩ := h
  have hj5 : j < 5 := by simpa using hj
  refine ⟨j, hj5, hp, ?_⟩
  apply List.ext_getElem
  · simp [xKey, lineOf_length]
  · intro i h1 h2
    have hi5 : i < 5 := by
      rw [List.length_map, lineOf_length] at h1
      exact h1
    have hl5 : i < (lineOf ws t 5).length := by rw [lineOf_length]; exact hi5
    have hmap : ((lineOf ws t 5).map (rep b))[i] = rep b ((lineOf ws t 5)[i]) := by simp
    have hgd : (lineOf ws t 5)[i] = ws + (i : Int) * t := by
      rw [← List.getD_eq_getElem (lineOf ws t 5) 0 hl5]
      exact lineOf_getD t 5 i ws hi5
    have hkeyi : (xKey j)[i] = if i = j then RChar.dot else RChar.x := by simp [xKey]
    rw [hmap, hgd, hkeyi]
    by_cases hij : i = j
    · subst hij
      simp only [if_pos rfl]
      apply rep_of_empty
      rw [← hp]
      exact hemp
    · rw [if_neg hij]
      exact rep_of_cp b _ (hx i (by simpa using hi5) hij)

theorem xKey_lookup0 (j : Nat) (hj : j < 5) : lspLookup0 (xKey j) = some [4 - j] := by
  interval_cases j <;> decide

theorem map_rep_lineOf_append (b : Board) (a s : Int) (k : Nat) :
    ((lineOf a s k).map (rep b)) ++ [rep b (a + (k : Int) * s)]
      = (lineOf a s (k + 1)).map (rep b) := by
  have hsing : [rep b (a + (k : Int) * s)] = ([a + (k : Int) * s]).map (rep b) := rfl
  rw [hsing, ← List.map_append, lineOf_append]

theorem check_pattern_upd_mem (b : Board) (s : Int) (fuel : Nat) (pt : Int)
    (acc : List RChar) (ms : MS) (q : Int) (h : q ∈ (cpUpdate ms pt s acc).t0) :
    q ∈ (check_pattern b s (fuel + 1) pt acc ms).t0 := by
  simp only [check_pattern]
  split
  · exact h
  · exact (check_pattern_sub b s fuel _ _ _).1 h

set_option maxHeartbeats 1000000 in
theorem check_pattern_adds (b : Board) (hWF : WF b) (a s p : Int)
    (hevt : WinEvt b a s p) (ms : MS) :
    p ∈ (check_pattern b s 10 a [] ms).t0 := by
  obtain ⟨j, hj5, hp, hkey⟩ := winEvt_key b a s p hevt
  have hnb := winEvt_nonborder b a s p hevt
  have hintr : ∀ i : Nat, i < 5 → isInterior (a + (i : Int) * s) = true :=
    fun i hi => nonborder_interior b hWF _ (hnb i hi)
  have main : ∀ d : Nat, d ≤ 5 → ∀ ms2 : MS,
      p ∈ (check_pattern b s (5 + d) (a + ((5 - d : Nat) : Int) * s)
        ((lineOf a s (5 - d)).map (rep b)) ms2).t0 := by
    intro d
    induction d with
    | zero =>
      intro _ ms2
      have hkey5 : (lineOf a s (5 - 0)).map (rep b) = xKey j := by simpa using hkey
      have hl0 := xKey_lookup0 j hj5
      have hqv : (a + ((5 - 0 : Nat) : Int) * s) - s * (((4 - j : Nat) : Int) + 1) = p := by
        rw [hp]
        have hc1 : ((4 - j : Nat) : Int) = 4 - (j : Int) := by omega
        have hc2 : ((5 - 0 : Nat) : Int) = 5 := by norm_num
        rw [hc1, hc2]
        ring
      have hupd : p ∈ (cpUpdate ms2 (a + ((5 - 0 : Nat) : Int) * s) s
          ((lineOf a s (5 - 0)).map (rep b))).t0 := by
        rw [hkey5]
        unfold cpUpdate
        rw [hl0]
        simp only [List.foldl_cons, List.foldl_nil]
        rw [hqv]
        exact addPt_self ms2.t0 p
      exact check_pattern_upd_mem b s 4 _ _ ms2 p hupd
    | succ d ih =>
      intro hd5 ms2
      have hk4 : 5 - (d + 1) ≤ 4 := by omega
      have hlen : ((lineOf a s (5 - (d + 1))).map (rep b)).length = 5 - (d + 1) := by
        rw [List.length_map, lineOf_length]
      have hkint := hintr (5 - (d + 1)) (by omega)
      have hbnd := interior_bounds _ hkint
      simp only [check_pattern]
      rw [cpUpdate_other _ _ _ _ (by omega) (by omega)]
      have hcond : ¬ (¬ (0 ≤ a + ((5 - (d + 1) : Nat) : Int) * s ∧
          a + ((5 - (d + 1) : Nat) : Int) * s < 73) ∨
          ((lineOf a s (5 - (d + 1))).map (rep b)).length = 9) := by
        push_neg
        refine ⟨⟨hbnd.1, hbnd.2⟩, by omega⟩
      rw [if_neg hcond]
      have e1 : a + ((5 - (d + 1) : Nat) : Int) * s + s = a + ((5 - d : Nat) : Int) * s := by
        have hc : ((5 - (d + 1) : Nat) : Int) = ((5 - d : Nat) : Int) - 1 := by omega
        rw [hc]
        ring
      have e2 : (lineOf a s (5 - (d + 1))).map (rep b)
          ++ [rep b (a + ((5 - (d + 1) : Nat) : Int) * s)]
          = (lineOf a s (5 - d)).map (rep b) := by
        have hkk : 5 - (d + 1) + 1 = 5 - d := by omega
        rw [map_rep_lineOf_append, hkk]
      have e3 : 5 + (d + 1) - 1 = 5 + d := by omega
      rw [e1, e2]
      exact ih (by omega) _
  have htop := main 5 (by omega) ms
  have e4 : ((5 - 5 : Nat) : Int) = 0 := by norm_num
  rw [e4] at htop
  norm_num at htop
  exact htop

theorem foldl_MSsub {α : Type} (f : MS → α → MS) (hf : ∀ ms x, MSsub ms (f ms x)) :
    ∀ (l : List α) (ms : MS), MSsub ms (l.foldl f ms) := by
  intro l
  induction l with
  | nil => intro ms; exact MSsub_refl ms
  | cons x rest ih =>
    intro ms
    exact MSsub_trans _ _ _ (hf ms x) (ih (f ms x))

theorem lspScan_reach (b : Board) (a s q : Int) (ha : a ∈ lspAnchors b) (hs : s ∈ lspDirs)
    (hq : ∀ ms : MS, q ∈ (check_pattern b s 10 a [] ms).t0) :
    q ∈ (lspScan b).t0 := by
  unfold lspScan
  obtain ⟨l1, l2, he⟩ := List.append_of_mem ha
  rw [he, List.foldl_append]
  have hfmono : ∀ (ms : MS) (x : Int),
      MSsub ms (lspDirs.foldl (fun ms2 s2 => check_pattern b s2 10 x [] ms2) ms) := by
    intro ms x
    exact foldl_MSsub _ (fun ms2 s2 => check_pattern_sub b s2 10 x [] ms2) lspDirs ms
  have hin : q ∈ (lspDirs.foldl (fun ms2 s2 => check_pattern b s2 10 a [] ms2)
      (List.foldl (fun ms p => lspDirs.foldl
        (fun ms2 s2 => check_pattern b s2 10 p [] ms2) ms) ⟨[], [], [], []⟩ l1)).t0 := by
    obtain ⟨d1, d2, hd⟩ := List.append_of_mem hs
    rw [hd, List.foldl_append]
    simp only [List.foldl_cons]
    exact (foldl_MSsub _ (fun ms2 s2 => check_pattern_sub b s2 10 a [] ms2) d2 _).1 (hq _)
  simp only [List.foldl_cons]
  exact (foldl_MSsub _ hfmono l2 _).1 hin


/-- All four buckets hold only empty cells. -/
def MSEmpty (b : Board) (ms : MS) : Prop :=
  (∀ q ∈ ms.t0, b.cells q = Cell.empty) ∧ (∀ q ∈ ms.t1, b.cells q = Cell.empty) ∧
  (∀ q ∈ ms.t2, b.cells q = Cell.empty) ∧ (∀ q ∈ ms.t3, b.cells q = Cell.empty)

theorem dotCell_of_getD (b : Board) (a s : Int) (n i : Nat) (hi : i < n)
    (hdot : ((lineOf a s n).map (rep b)).getD i RChar.bdr = RChar.dot) :
    b.cells (a + (i : Int) * s) = Cell.empty := by
  have hgd := getD_map_rep b (lineOf a s n) i (by rw [lineOf_length]; omega)
  have hdot2 : rep b ((lineOf a s n).getD i 0) = RChar.dot := by
    rw [← hgd]; exact hdot
  have hpos := lineOf_getD s n i a hi
  rw [← hpos]
  exact rep_dot b _ hdot2

theorem cpUpdate_empty (b : Board) (a s : Int) (len : Nat) (ms : MS)
    (h : MSEmpty b ms) :
    MSEmpty b (cpUpdate ms (a + (len : Int) * s) s ((lineOf a s len).map (rep b))) := by
  have hvlen : ((lineOf a s len).map (rep b)).length = len := by
    rw [List.length_map, lineOf_length]
  unfold cpUpdate
  cases hl0 : lspLookup0 ((lineOf a s len).map (rep b)) with
  | some ds =>
    obtain ⟨hlen, d, hds, hd4, hdot⟩ := lspLookup0_facts _ ds hl0
    have hlen5 : len = 5 := by omega
    subst hds hlen5
    refine ⟨?_, h.2.1, h.2.2.1, h.2.2.2⟩
    intro q hq
    simp only [List.foldl_cons, List.foldl_nil] at hq
    rcases mem_addPt _ _ _ hq with hold | hnew
    · exact h.1 q hold
    · subst hnew
      have hqe : (a + ((5 : Nat) : Int) * s) - s * ((d : Int) + 1)
          = a + ((4 - d : Nat) : Int) * s := by
        have hc : ((4 - d : Nat) : Int) = 4 - (d : Int) := by omega
        rw [hc]; push_cast; ring
      rw [hqe]
      exact dotCell_of_getD b a s 5 (4 - d) (by omega) hdot.1
  | none =>
    cases hl1 : lspLookup1 ((lineOf a s len).map (rep b)) with
    | some ds =>
      obtain ⟨hlen, d, hds, hd4, hdot⟩ := lspLookup1_facts _ ds hl1
      have hlen5 : len = 5 := by omega
      subst hds hlen5
      refine ⟨h.1, ?_, h.2.2.1, h.2.2.2⟩
      intro q hq
      simp only [List.foldl_cons, List.foldl_nil] at hq
      rcases mem_addPt _ _ _ hq with hold | hnew
      · exact h.2.1 q hold
      · subst hnew
        have hqe : (a + ((5 : Nat) : Int) * s) - s * ((d : Int) + 1)
            = a + ((4 - d : Nat) : Int) * s := by
          have hc : ((4 - d : Nat) : Int) = 4 - (d : Int) := by omega
          rw [hc]; push_cast; ring
        rw [hqe]
        exact dotCell_of_getD b a s 5 (4 - d) (by omega) hdot
    | none =>
      cases hl2 : lspLookup2 ((lineOf a s len).map (rep b)) with
      | some ds =>
        obtain ⟨hlen, hall⟩ := lspLookup2_facts _ ds hl2
        have hlen6 : len = 6 := by omega
        subst hlen6
        refine ⟨h.1, h.2.1, ?_, h.2.2.2⟩
        intro q hq
        rcases foldl_addPt_mem _ ds ms.t2 q hq with hold | ⟨d, hd, he⟩
        · exact h.2.2.1 q hold
        · subst he
          obtain ⟨hd5, hdot⟩ := hall d hd
          have hqe : (a + ((6 : Nat) : Int) * s) - s * ((d : Int) + 1)
              = a + ((5 - d : Nat) : Int) * s := by
            have hc : ((5 - d : Nat) : Int) = 5 - (d : Int) := by omega
            rw [hc]; push_cast; ring
          rw [hqe]
          exact dotCell_of_getD b a s 6 (5 - d) (by omega) hdot
      | none =>
        cases hl3 : lspLookup3 ((lineOf a s len).map (rep b)) with
        | some ds =>
          obtain ⟨hlen, hall⟩ := lspLookup3_facts _ ds hl3
          have hlen6 : len = 6 := by omega
          subst hlen6
          refine ⟨h.1, h.2.1, h.2.2.1, ?_⟩
          intro q hq
          rcases foldl_addPt_mem _ ds ms.t3 q hq with hold | ⟨d, hd, he⟩
          · exact h.2.2.2 q hold
          · subst he
            obtain ⟨hd5, hdot⟩ := hall d hd
            have hqe : (a + ((6 : Nat) : Int) * s) - s * ((d : Int) + 1)
                = a + ((5 - d : Nat) : Int) * s := by
              have hc : ((5 - d : Nat) : Int) = 5 - (d : Int) := by omega
              rw [hc]; push_cast; ring
            rw [hqe]
            exact dotCell_of_getD b a s 6 (5 - d) (by omega) hdot
        | none => exact h

theorem check_pattern_empty (b : Board) (s a : Int) :
    ∀ (fuel len : Nat) (ms : MS), MSEmpty b ms →
      MSEmpty b (check_pattern b s fuel (a + (len : Int) * s)
        ((lineOf a s len).map (rep b)) ms) := by
  intro fuel
  induction fuel with
  | zero => intro len ms h; exact h
  | succ n ih =>
    intro len ms h
    simp only [check_pattern]
    have h1 := cpUpdate_empty b a s len ms h
    split
    · exact h1
    · rw [map_rep_lineOf_append,
        show a + (len : Int) * s + s = a + ((len + 1 : Nat) : Int) * s by push_cast; ring]
      exact ih (len + 1) _ h1

theorem foldl_pres_mem {α : Type} (P : MS → Prop) (f : MS → α → MS) :
    ∀ (l : List α), (∀ ms x, x ∈ l → P ms → P (f ms x)) →
      ∀ ms : MS, P ms → P (l.foldl f ms) := by
  intro l
  induction l with
  | nil => intro _ ms h; exact h
  | cons x rest ih =>
    intro hstep ms h
    simp only [List.foldl_cons]
    exact ih (fun ms2 y hy hP => hstep ms2 y (by simp [hy]) hP) (f ms x)
      (hstep ms x (by simp) h)

theorem lspScan_empty (b : Board) : MSEmpty b (lspScan b) := by
  unfold lspScan
  apply foldl_pres_mem (MSEmpty b) _ (lspAnchors b) ?_ _ ?_
  · intro ms x _ hms
    apply foldl_pres_mem (MSEmpty b) _ lspDirs ?_ ms hms
    intro ms2 s2 _ hms2
    have hme := check_pattern_empty b s2 x 10 0 ms2 hms2
    have h0 : x + ((0 : Nat) : Int) * s2 = x := by norm_num
    rw [h0] at hme
    exact hme
  · exact ⟨by simp, by simp, by simp, by simp⟩

theorem cpUpdate_t0win (b : Board) (hWF : WF b) (a s : Int)
    (hs : s = 1 ∨ s = 8 ∨ s = 9 ∨ s = 7) (len : Nat) (ms : MS)
    (h : ∀ q ∈ ms.t0, isWinPoint b q) :
    ∀ q ∈ (cpUpdate ms (a + (len : Int) * s) s ((lineOf a s len).map (rep b))).t0,
      isWinPoint b q := by
  have hvlen : ((lineOf a s len).map (rep b)).length = len := by
    rw [List.length_map, lineOf_length]
  unfold cpUpdate
  cases hl0 : lspLookup0 ((lineOf a s len).map (rep b)) with
  | some ds =>
    obtain ⟨hlen, d, hds, hd4, hdot, hx⟩ := lspLookup0_facts _ ds hl0
    have hlen5 : len = 5 := by omega
    subst hds hlen5
    intro q hq
    simp only [List.foldl_cons, List.foldl_nil] at hq
    rcases mem_addPt _ _ _ hq with hold | hnew
    · exact h q hold
    · subst hnew
      have hqe : (a + ((5 : Nat) : Int) * s) - s * ((d : Int) + 1)
          = a + ((4 - d : Nat) : Int) * s := by
        have hc : ((4 - d : Nat) : Int) = 4 - (d : Int) := by omega
        rw [hc]; push_cast; ring
      rw [hqe]
      have hcellj : b.cells (a + ((4 - d : Nat) : Int) * s) = Cell.empty :=
        dotCell_of_getD b a s 5 (4 - d) (by omega) hdot
      have hcellx : ∀ i ∈ List.range 5, i ≠ 4 - d →
          b.cells (a + (i : Int) * s) = b.current_player.toCell := by
        intro i hi hne
        have hxi := hx i hi hne
        have hi5 : i < 5 := by simpa using hi
        have hgd := getD_map_rep b (lineOf a s 5) i (by rw [lineOf_length]; omega)
        have hxi2 : rep b ((lineOf a s 5).getD i 0) = RChar.x := by
          rw [← hgd]; exact hxi
        have hpos := lineOf_getD s 5 i a hi5
        rw [← hpos]
        exact rep_x b _ hxi2
      have hevt : WinEvt b a s (a + ((4 - d : Nat) : Int) * s) :=
        ⟨4 - d, by simp; omega, rfl, hcellj, hcellx⟩
      have hint : ∀ i : Nat, i < 5 → isInterior (a + (i : Int) * s) = true := by
        intro i hi
        exact nonborder_interior b hWF _ (winEvt_nonborder b a s _ hevt i hi)
      exact ⟨(a, s), interiorWindow a s hs hint, hevt⟩
  | none =>
    cases lspLookup1 ((lineOf a s len).map (rep b)) with
    | some ds => exact h
    | none =>
      cases lspLookup2 ((lineOf a s len).map (rep b)) with
      | some ds => exact h
      | none =>
        cases lspLookup3 ((lineOf a s len).map (rep b)) with
        | some ds => exact h
        | none => exact h

theorem check_pattern_t0win (b : Board) (hWF : WF b) (s a : Int)
    (hs : s = 1 ∨ s = 8 ∨ s = 9 ∨ s = 7) :
    ∀ (fuel len : Nat) (ms : MS), (∀ q ∈ ms.t0, isWinPoint b q) →
      ∀ q ∈ (check_pattern b s fuel (a + (len : Int) * s)
        ((lineOf a s len).map (rep b)) ms).t0, isWinPoint b q := by
  intro fuel
  induction fuel with
  | zero => intro len ms h; exact h
  | succ n ih =>
    intro len ms h
    simp only [check_pattern]
    have h1 := cpUpdate_t0win b hWF a s hs len ms h
    split
    · exact h1
    · rw [map_rep_lineOf_append,
        show a + (len : Int) * s + s = a + ((len + 1 : Nat) : Int) * s by push_cast; ring]
      exact ih (len + 1) _ h1

theorem lspScan_t0win (b : Board) (hWF : WF b) :
    ∀ q ∈ (lspScan b).t0, isWinPoint b q := by
  unfold lspScan
  apply foldl_pres_mem (fun ms => ∀ q ∈ ms.t0, isWinPoint b q) _ (lspAnchors b) ?_ _ ?_
  · intro ms x _ hms
    apply foldl_pres_mem (fun ms => ∀ q ∈ ms.t0, isWinPoint b q) _ lspDirs ?_ ms hms
    intro ms2 s2 hs2 hms2
    have hs4 : s2 = 1 ∨ s2 = 8 ∨ s2 = 9 ∨ s2 = 7 := by
      simp only [lspDirs, List.mem_cons, List.not_mem_nil, or_false] at hs2
      tauto
    have hme := check_pattern_t0win b hWF s2 x hs4 10 0 ms2 hms2
    have h0 : x + ((0 : Nat) : Int) * s2 = x := by norm_num
    rw [h0] at hme
    exact hme
  · intro q hq
    simp at hq

theorem mem_boardRange (p : Int) : p ∈ boardRange ↔ 0 ≤ p ∧ p < 73 := by
  unfold boardRange
  simp only [List.mem_map, List.mem_range]
  constructor
  · rintro ⟨n, hn, he⟩
    omega
  · intro hb
    exact ⟨p.toNat, by omega, by omega⟩

theorem lsp_t0_result (b : Board) (h : (lspScan b).t0 ≠ []) :
    list_solve_point b = some (lspScan b).t0 := by
  unfold list_solve_point
  rw [if_pos h]

theorem list_solve_point_empty (b : Board) (l : List Int)
    (hl : list_solve_point b = some l) : ∀ q ∈ l, b.cells q = Cell.empty := by
  have hE := lspScan_empty b
  unfold list_solve_point at hl
  split_ifs at hl <;> injection hl with hh
  · subst hh; exact hE.1
  · subst hh; exact hE.2.1
  · subst hh; exact hE.2.2.1
  · subst hh; exact hE.2.2.2


/-- C4: whenever an immediate winning point exists for the player to move,
`list_solve_point` returns a non-empty list consisting only of immediate
winning points — in particular it never returns points that are merely
blocks or lower-tier moves, which are only reached when the win tier is
empty. -/
theorem C4_list_solve_point_win_tier (b : Board) (hWF : WF b)
    (h : ∃ p, isWinPoint b p) :
    ∃ l, list_solve_point b = some l ∧ l ≠ [] ∧ ∀ q ∈ l, isWinPoint b q := by
  obtain ⟨p, st, hstmem, hevt⟩ := h
  have hstep := geo_steps st hstmem
  have hbounds := geo_start_bounds st hstmem
  have hanch : st.1 ∈ lspAnchors b := by
    unfold lspAnchors
    rw [List.mem_filter]
    refine ⟨(mem_boardRange st.1).mpr ⟨by omega, by omega⟩, ?_⟩
    simp only [decide_eq_true_eq]
    have hnb := winEvt_nonborder b st.1 st.2 p hevt 0 (by omega)
    norm_num at hnb
    exact hnb
  have hdir : st.2 ∈ lspDirs := by
    rcases hstep with h1 | h1 | h1 | h1 <;> simp [lspDirs, h1]
  have hreach := lspScan_reach b st.1 st.2 p hanch hdir
    (fun ms => check_pattern_adds b hWF st.1 st.2 p hevt ms)
  have ht0ne : (lspScan b).t0 ≠ [] := by
    intro hnil
    rw [hnil] at hreach
    simp at hreach
  exact ⟨(lspScan b).t0, lsp_t0_result b ht0ne, ht0ne, lspScan_t0win b hWF⟩

/-- C4 witness: with Black stones on 9-12, `list_solve_point` returns a
non-empty list of winning points. -/
theorem C4_list_solve_point_win_tier_witness :
    (∃ p, isWinPoint cb3 p) ∧
    (∃ l, list_solve_point cb3 = some l ∧ l ≠ [] ∧ ∀ q ∈ l, isWinPoint cb3 q) :=
  ⟨⟨13, by decide⟩,
   C4_list_solve_point_win_tier cb3 (mkBoard_WF _ _) ⟨13, by decide⟩⟩

/-- C5 amended: the two detectors need not produce equal critical point sets
(see the counterexample), but they agree on the top tier in this sense:
whenever `winDetection` early-exits with its singleton own-win bucket [p],
`list_solve_point` returns its own win tier, p belongs to it, and every point
of it is an immediate winning point. -/
theorem C5_winDetection_vs_list_solve_point (b : Board) (hWF : WF b) (p : Int)
    (hwd : winDetection b = ([p], [], [], [])) :
    ∃ l, list_solve_point b = some l ∧ p ∈ l ∧ ∀ q ∈ l, isWinPoint b q := by
  have hrr := runLines_run b wdLineSpecs ⟨[], [], []⟩ wdLineSpecs_good
  unfold winDetection at hwd
  cases hrl : runLines b wdLineSpecs ⟨[], [], []⟩ with
  | ok acc =>
    rw [hrl] at hwd
    simp at hwd
  | error q =>
    rw [hrl] at hwd
    simp only [Prod.mk.injEq, List.cons.injEq] at hwd
    have hqp : q = p := hwd.1.1
    subst hqp
    have hwin : isWinPoint b q := hrr.1 q hrl
    obtain ⟨st, hstmem, hevt⟩ := hwin
    have hstep := geo_steps st hstmem
    have hbounds := geo_start_bounds st hstmem
    have hanch : st.1 ∈ lspAnchors b := by
      unfold lspAnchors
      rw [List.mem_filter]
      refine ⟨(mem_boardRange st.1).mpr ⟨by omega, by omega⟩, ?_⟩
      simp only [decide_eq_true_eq]
      have hnb := winEvt_nonborder b st.1 st.2 q hevt 0 (by omega)
      norm_num at hnb
      exact hnb
    have hdir : st.2 ∈ lspDirs := by
      rcases hstep with h1 | h1 | h1 | h1 <;> simp [lspDirs, h1]
    have hreach := lspScan_reach b st.1 st.2 q hanch hdir
      (fun ms => check_pattern_adds b hWF st.1 st.2 q hevt ms)
    have ht0ne : (lspScan b).t0 ≠ [] := by
      intro hnil
      rw [hnil] at hreach
      simp at hreach
    exact ⟨(lspScan b).t0, lsp_t0_result b ht0ne, hreach, lspScan_t0win b hWF⟩

/-- Board with two separate Black four-in-a-rows (9-12 and 33-36), Black to
move: two distinct immediate winning points 13 and 37 exist. -/
def cbC5 : Board := mkBoard
  (fun p => if (9 ≤ p ∧ p ≤ 12) ∨ (33 ≤ p ∧ p ≤ 36) then Cell.black else Cell.empty)
  Player.black

set_option maxHeartbeats 4000000 in
set_option maxRecDepth 100000 in
/-- C5 counterexample: with two simultaneous own wins, `winDetection` returns
only the first win point [13] while `list_solve_point` returns a win tier
that also contains 37, so the two scans do not agree on the critical point
set, refuting the claimed equality. -/
theorem C5_counterexample :
    (winDetection cbC5).1 = [13] ∧
    37 ∈ ((list_solve_point cbC5).getD []) ∧
    13 ∈ ((list_solve_point cbC5).getD []) ∧
    37 ∉ [(13 : Int)] := by
  refine ⟨by decide, by decide, by decide, by decide⟩

/-- C5 witness: with Black stones on 9-12, `winDetection` early-exits with
[13] and the amended agreement holds. -/
theorem C5_winDetection_vs_list_solve_point_witness :
    winDetection cb3 = ([13], [], [], []) ∧
    (∃ l, list_solve_point cb3 = some l ∧ 13 ∈ l ∧ ∀ q ∈ l, isWinPoint cb3 q) :=
  ⟨by decide,
   C5_winDetection_vs_list_solve_point cb3 (mkBoard_WF _ _) 13 (by decide)⟩


/-- One walk of `_point_direction_check_connect_gomoko_heur` (simple_board.py
lines 706-747), fused with the scoring loop of lines 739-747: own-color cells
add 1 and the walk continues, empty cells add 1/2 and the walk continues, any
other cell adds -1 and stops (the `?` terminator). Fuel never runs out on
well-formed boards. -/
def heurDirScore (cells : Int → Cell) (color : Cell) : Int → Int → Nat → ℚ
  | _, _, 0 => 0
  | p, d, fuel + 1 =>
    if cells (p + d) = color then 1 + heurDirScore cells color (p + d) d fuel
    else if cells (p + d) = Cell.empty then 1 / 2 + heurDirScore cells color (p + d) d fuel
    else -1

/-- `_point_direction_check_connect_gomoko_heur` (simple_board.py lines
706-747): the summed character scores of the two walks from the point. -/
def point_direction_check_connect_gomoko_heur (b : Board) (point shift : Int) : ℚ :=
  heurDirScore b.cells (b.cells point) point shift 80 +
  heurDirScore b.cells (b.cells point) point (-shift) 80

/-- Modelled from the spec: `point_check_game_end_gomoku_heur` (simple_board.py
lines 749-753) does not parse in the source (the `+`-continuation lines after
`return` are a syntax error); the spec's accumulation rule sums the
line potentials of the four directions. -/
def point_check_game_end_gomoku_heur (b : Board) (point : Int) : ℚ :=
  point_direction_check_connect_gomoko_heur b point 1 +
  point_direction_check_connect_gomoko_heur b point 8 +
  point_direction_check_connect_gomoko_heur b point 9 +
  point_direction_check_connect_gomoko_heur b point 7

/-- Modelled from the spec: `get_heuristic_score` (simple_board.py lines
755-768) has a stray colon at line 763 that makes the module fail to parse;
the spec's rule is the signed sum — add each current-player stone's
four-direction potential, subtract each opponent stone's. -/
def get_heuristic_score (b : Board) : ℚ :=
  ((pointsOf b b.current_player.toCell).map
    (fun p => point_check_game_end_gomoku_heur b p)).sum -
  ((pointsOf b (opponent b.current_player).toCell).map
    (fun p => point_check_game_end_gomoku_heur b p)).sum

/-- The same position with the other player to move. -/
def flipPlayer (b : Board) : Board := ⟨b.cells, opponent b.current_player⟩

theorem opponent_opponent (pl : Player) : opponent (opponent pl) = pl := by
  cases pl <;> rfl

/-- C10: the heuristic leaf score, reconstructed from the spec because the
source lines 749-753 and 763 are syntactically invalid Python, is the signed
per-stone line-potential sum; consequently it is antisymmetric in the player
to move: flipping current_player negates the score. -/
theorem C10_heuristic_signed_sum (b : Board) :
    get_heuristic_score b =
      ((pointsOf b b.current_player.toCell).map
        (fun p => point_check_game_end_gomoku_heur b p)).sum -
      ((pointsOf b (opponent b.current_player).toCell).map
        (fun p => point_check_game_end_gomoku_heur b p)).sum ∧
    get_heuristic_score (flipPlayer b) = - get_heuristic_score b := by
  constructor
  · rfl
  · unfold get_heuristic_score
    have h1 : (flipPlayer b).current_player = opponent b.current_player := rfl
    have h2 : opponent (opponent b.current_player) = b.current_player :=
      opponent_opponent b.current_player
    have h3 : pointsOf (flipPlayer b) = pointsOf b := rfl
    have h4 : point_check_game_end_gomoku_heur (flipPlayer b)
        = point_check_game_end_gomoku_heur b := rfl
    rw [h1, h2, h3, h4]
    ring


/-- The board-resident best-move scratch fields (`best_move_score`,
`best_move`), threaded explicitly. -/
structure Best where
  score : ℚ
  move : Option Int
deriving DecidableEq

/-- Raw cell write `self.board[point] = c`. -/
def setCell (b : Board) (p : Int) (c : Cell) : Board :=
  ⟨fun q => if q = p then c else b.cells q, b.current_player⟩

/-- Raw player flip `self.current_player = opponent(...)`. -/
def flipCur (b : Board) : Board := ⟨b.cells, opponent b.current_player⟩

/-- The forced-block step of `negaAB` (simple_board.py lines 799-807 and
812-821): write the stone, flip, recurse one ply, negate, flip back, clear,
and return the negated value with the forced point. -/
def forcedStep
    (child : Board → Best → ℚ → ℚ → Option Int → Option (ℚ × Option Int × Board × Best))
    (b : Board) (st : Best) (α β : ℚ) (point : Int) :
    Option (ℚ × Option Int × Board × Best) :=
  match child (flipCur (setCell b point b.current_player.toCell)) st (-β) (-α) (some point) with
  | none => none
  | some (r, _, b3, st3) =>
    some (-r, some point, setCell (flipCur b3) point Cell.empty, st3)

/-- The enumeration loop of `negaAB` (simple_board.py lines 823-849),
processing the empty points in pop order (reverse of ascending): write the
stone, terminal-check the played point (propagating its assertion failures as
none), recurse, update alpha, restore, beta-cutoff, else continue; the final
return carries alpha and the last processed point. -/
def negaLoop
    (child : Board → Best → ℚ → ℚ → Option Int → Option (ℚ × Option Int × Board × Best))
    (β : ℚ) : List Int → Board → ℚ → Int → Best → Option (ℚ × Option Int × Board × Best)
  | [], b, α, ptvar, st => some (α, some ptvar, b, st)
  | p :: rest, b, α, _, st =>
    match point_check_game_end_gomoku (setCell b p b.current_player.toCell) p with
    | .val true => some (1, some p, setCell (setCell b p b.current_player.toCell) p Cell.empty, st)
    | .val false =>
      match child (flipCur (setCell b p b.current_player.toCell)) st (-β) (-α) (some p) with
      | none => none
      | some (r, _, b3, st3) =>
        let v := -r
        let α2 := if v > α then v else α
        let b4 := setCell (flipCur b3) p Cell.empty
        if v ≥ β then some (β, some p, b4, st3)
        else negaLoop child β rest b4 α2 p st3
    | .assertFail => none
    | .fuelOut => none

/-- `negaAB` (simple_board.py lines 771-849): at depth 0 the heuristic leaf
updates the board-resident best fields; otherwise explicit multi-threat
bookkeeping from `winDetection`, then the enumeration loop. The result is
(score, move, final board state, best fields); none models an AssertionError
escaping from a terminal check. -/
def negaAB : Nat → Board → Best → ℚ → ℚ → Option Int →
    Option (ℚ × Option Int × Board × Best)
  | 0, b, st, _, _, prev =>
    if get_heuristic_score b > st.score then
      if get_heuristic_score b = 100000 then
        some (1, prev, b, ⟨get_heuristic_score b, prev⟩)
      else if get_heuristic_score b = -100000 then
        some (-1, prev, b, ⟨get_heuristic_score b, prev⟩)
      else some (0, none, b, ⟨get_heuristic_score b, prev⟩)
    else some (0, none, b, st)
  | d + 1, b, st, α, β, _ =>
    if pointsOf b Cell.empty = [] then some (0, none, b, st)
    else
      if (winDetection b).1 ≠ [] then some (1, some (winDetection b).1.headI, b, st)
      else
        match (winDetection b).2.1 with
        | q1 :: _ :: _ => some (-1, some q1, b, st)
        | [q1] =>
          if (winDetection b).2.2.2 ≠ [] then some (-1, some q1, b, st)
          else forcedStep (negaAB d) b st α β q1
        | [] =>
          if (winDetection b).2.2.1 ≠ [] then some (1, some (winDetection b).2.2.1.headI, b, st)
          else
            match (winDetection b).2.2.2 with
            | u1 :: _ :: _ => some (-1, some u1, b, st)
            | [u1] => forcedStep (negaAB d) b st α β u1
            | [] => negaLoop (negaAB d) β (pointsOf b Cell.empty).reverse b α
                ((pointsOf b Cell.empty).headI) st

/-- INFINITY of alphabeta.py. -/
def INFINITY : ℚ := 10000000000

/-- `game_end` (alphabeta.py lines 12-20): terminal value or none, with
assertion failures of the terminal scan propagated. -/
def game_end (b : Board) : Res (Option ℚ) :=
  match check_game_end_gomoku b with
  | .val (ge, winner) =>
    if ge then
      .val (some (if winner = some b.current_player then INFINITY else -INFINITY))
    else if pointsOf b Cell.empty = [] then .val (some 0)
    else .val none
  | .assertFail => .assertFail
  | .fuelOut => .fuelOut

/-- The move-enumeration loop of `alphabeta` (alphabeta.py lines 40-47):
play, recurse with the negated window, update alpha, undo, beta-cutoff. -/
def abLoop (child : Board → ℚ → ℚ → Int → Option (ℚ × Board)) (β : ℚ) (d : Int) :
    List Int → Board → ℚ → Option (ℚ × Board)
  | [], b, α => some (α, b)
  | m :: rest, b, α =>
    match child (play_move_gomoku b m b.current_player).2 (-β) (-α) (d - 1) with
    | none => none
    | some (r0, b2) =>
      let r := -r0
      let α2 := if r > α then r else α
      let b3 := undo b2 m
      if r ≥ β then some (β, b3)
      else abLoop child β d rest b3 α2

/-- `alphabeta` (alphabeta.py lines 22-49): terminal value first; with a
critical point, the forced single-successor branch; otherwise the heuristic
cutoff at depth <= 0 or full enumeration of the empty points. The fuel only
bounds recursion depth (each level plays one stone, so 73 always suffices);
none models fuel exhaustion or an escaping AssertionError. The legal move
generator of board_util (not among the source files) is modelled from the
spec as the list of empty points. -/
def alphabeta : Nat → Board → ℚ → ℚ → Int → Option (ℚ × Board)
  | 0, _, _, _, _ => none
  | fuel + 1, b, α, β, d =>
    match game_end b with
    | .assertFail => none
    | .fuelOut => none
    | .val (some v) => some (v, b)
    | .val none =>
      match list_solve_point b with
      | some (sp :: _) =>
        match alphabeta fuel (play_move_gomoku b sp b.current_player).2 (-β) (-α) (d - 1) with
        | none => none
        | some (r0, b2) =>
          let r := -r0
          let α2 := if r > α then r else α
          let b3 := undo b2 sp
          if r ≥ β then some (β, b3) else some (α2, b3)
      | _ =>
        if d ≤ 0 then some (get_heuristic_score b, b)
        else abLoop (alphabeta fuel) β d (pointsOf b Cell.empty) b α


/-- Every point in any of the four winDetection buckets is an empty cell. -/
theorem winDetection_empty (b : Board) :
    (∀ q ∈ (winDetection b).1, b.cells q = Cell.empty) ∧
    (∀ q ∈ (winDetection b).2.1, b.cells q = Cell.empty) ∧
    (∀ q ∈ (winDetection b).2.2.1, b.cells q = Cell.empty) ∧
    (∀ q ∈ (winDetection b).2.2.2, b.cells q = Cell.empty) := by
  have hrr := runLines_run b wdLineSpecs ⟨[], [], []⟩ wdLineSpecs_good
  unfold winDetection
  cases hrl : runLines b wdLineSpecs ⟨[], [], []⟩ with
  | error q =>
    obtain ⟨st, hstm, hevt⟩ := hrr.1 q hrl
    have hq := winEvt_empty b st.1 st.2 q hevt
    refine ⟨?_, by simp, by simp, by simp⟩
    intro r hr
    simp at hr
    subst hr
    exact hq
  | ok acc =>
    have hext := hrr.2.1 acc hrl
    refine ⟨by simp, ?_, ?_, ?_⟩
    · intro r hr
      rcases hext.1 r hr with h | h
      · simp at h
      · exact h
    · intro r hr
      rcases hext.2.1 r hr with h | h
      · simp at h
      · exact h
    · intro r hr
      rcases hext.2.2 r hr with h | h
      · simp at h
      · exact h

theorem pointsOf_empty_mem (b : Board) (p : Int) (hp : p ∈ pointsOf b Cell.empty) :
    b.cells p = Cell.empty := by
  unfold pointsOf at hp
  rw [List.mem_filter] at hp
  simpa using hp.2

theorem forcedStep_restore
    (child : Board → Best → ℚ → ℚ → Option Int → Option (ℚ × Option Int × Board × Best))
    (hchild : ∀ (b : Board) (st : Best) (α β : ℚ) (prev : Option Int)
      (res : ℚ × Option Int × Board × Best), child b st α β prev = some res →
      res.2.2.1.cells = b.cells ∧ res.2.2.1.current_player = b.current_player)
    (b : Board) (st : Best) (α β : ℚ) (point : Int)
    (hemp : b.cells point = Cell.empty) :
    ∀ res, forcedStep child b st α β point = some res →
      res.2.2.1.cells = b.cells ∧ res.2.2.1.current_player = b.current_player := by
  intro res hres
  unfold forcedStep at hres
  cases hc : child (flipCur (setCell b point b.current_player.toCell)) st (-β) (-α)
      (some point) with
  | none => rw [hc] at hres; cases hres
  | some r3 =>
    rw [hc] at hres
    obtain ⟨r, mv, b3, st3⟩ := r3
    have hrest := hchild _ _ _ _ _ _ hc
    injection hres with h
    subst h
    constructor
    · funext q
      by_cases hq : q = point
      · subst hq
        simp [setCell]
        exact hemp.symm
      · simp only [setCell, flipCur, if_neg hq]
        have hc3 := congrFun hrest.1 q
        simp only [flipCur, setCell] at hc3
        rw [if_neg hq] at hc3
        exact hc3
    · simp only [setCell, flipCur]
      have hp3 := hrest.2
      simp only [flipCur, setCell] at hp3
      rw [hp3]
      exact opponent_opponent _

theorem negaLoop_restore
    (child : Board → Best → ℚ → ℚ → Option Int → Option (ℚ × Option Int × Board × Best))
    (hchild : ∀ (b : Board) (st : Best) (α β : ℚ) (prev : Option Int)
      (res : ℚ × Option Int × Board × Best), child b st α β prev = some res →
      res.2.2.1.cells = b.cells ∧ res.2.2.1.current_player = b.current_player)
    (β : ℚ) :
    ∀ (l : List Int) (b : Board) (α : ℚ) (pt : Int) (st : Best),
      (∀ p ∈ l, b.cells p = Cell.empty) →
      ∀ res, negaLoop child β l b α pt st = some res →
        res.2.2.1.cells = b.cells ∧ res.2.2.1.current_player = b.current_player := by
  intro l
  induction l with
  | nil =>
    intro b α pt st hemp res hres
    simp only [negaLoop] at hres
    injection hres with h
    subst h
    exact ⟨rfl, rfl⟩
  | cons p rest ih =>
    intro b α pt st hemp res hres
    have hpemp : b.cells p = Cell.empty := hemp p (by simp)
    simp only [negaLoop] at hres
    cases hpc : point_check_game_end_gomoku (setCell b p b.current_player.toCell) p with
    | assertFail => rw [hpc] at hres; cases hres
    | fuelOut => rw [hpc] at hres; cases hres
    | val tv =>
      rw [hpc] at hres
      cases tv with
      | true =>
        injection hres with h
        subst h
        constructor
        · funext q
          by_cases hq : q = p
          · subst hq
            simp [setCell]
            exact hpemp.symm
          · simp [setCell, hq]
        · simp [setCell]
      | false =>
        cases hc : child (flipCur (setCell b p b.current_player.toCell)) st (-β) (-α)
            (some p) with
        | none => rw [hc] at hres; cases hres
        | some r3 =>
          rw [hc] at hres
          obtain ⟨r, mv, b3, st3⟩ := r3
          dsimp only at hres
          have hrest := hchild _ _ _ _ _ _ hc
          have hb4c : (setCell (flipCur b3) p Cell.empty).cells = b.cells := by
            funext q
            by_cases hq : q = p
            · subst hq
              simp [setCell]
              exact hpemp.symm
            · simp only [setCell, flipCur, if_neg hq]
              have hc3 := congrFun hrest.1 q
              simp only [flipCur, setCell] at hc3
              rw [if_neg hq] at hc3
              exact hc3
          have hb4p : (setCell (flipCur b3) p Cell.empty).current_player
              = b.current_player := by
            simp only [setCell, flipCur]
            have hp3 := hrest.2
            simp only [flipCur, setCell] at hp3
            rw [hp3]
            exact opponent_opponent _
          by_cases hvb : -r ≥ β
          · rw [if_pos hvb] at hres
            injection hres with h
            subst h
            exact ⟨hb4c, hb4p⟩
          · rw [if_neg hvb] at hres
            have hempr : ∀ q ∈ rest, (setCell (flipCur b3) p Cell.empty).cells q
                = Cell.empty := by
              intro q hq
              rw [hb4c]
              exact hemp q (by simp [hq])
            have hr := ih (setCell (flipCur b3) p Cell.empty) _ p st3 hempr res hres
            rw [hb4c] at hr
            rw [hb4p] at hr
            exact hr

theorem negaAB_restore : ∀ (d : Nat) (b : Board) (st : Best) (α β : ℚ) (prev : Option Int)
    (res : ℚ × Option Int × Board × Best), negaAB d b st α β prev = some res →
    res.2.2.1.cells = b.cells ∧ res.2.2.1.current_player = b.current_player := by
  intro d
  induction d with
  | zero =>
    intro b st α β prev res hres
    simp only [negaAB] at hres
    split_ifs at hres <;> (injection hres with h; subst h; exact ⟨rfl, rfl⟩)
  | succ e ih =>
    intro b st α β prev res hres
    have hwde := winDetection_empty b
    simp only [negaAB] at hres
    by_cases h1 : pointsOf b Cell.empty = []
    · rw [if_pos h1] at hres
      injection hres with h; subst h; exact ⟨rfl, rfl⟩
    · rw [if_neg h1] at hres
      by_cases h2 : (winDetection b).1 ≠ []
      · rw [if_pos h2] at hres
        injection hres with h; subst h; exact ⟨rfl, rfl⟩
      · rw [if_neg h2] at hres
        cases htw : (winDetection b).2.1 with
        | cons q qs =>
          rw [htw] at hres
          cases qs with
          | cons q2 qs2 =>
            injection hres with h
            subst h
            exact ⟨rfl, rfl⟩
          | nil =>
            dsimp only at hres
            by_cases h3 : (winDetection b).2.2.2 ≠ []
            · rw [if_pos h3] at hres
              injection hres with h; subst h; exact ⟨rfl, rfl⟩
            · rw [if_neg h3] at hres
              have hqemp : b.cells q = Cell.empty := by
                apply hwde.2.1
                rw [htw]
                simp
              exact forcedStep_restore (negaAB e) (fun b2 st2 a2 b2' p2 r2 hcall =>
                ih b2 st2 a2 b2' p2 r2 hcall) b st α β q hqemp res hres
        | nil =>
          rw [htw] at hres
          dsimp only at hres
          by_cases h3 : (winDetection b).2.2.1 ≠ []
          · rw [if_pos h3] at hres
            injection hres with h; subst h; exact ⟨rfl, rfl⟩
          · rw [if_neg h3] at hres
            cases ht2 : (winDetection b).2.2.2 with
            | cons u us =>
              rw [ht2] at hres
              cases us with
              | cons u2 us2 =>
                injection hres with h
                subst h
                exact ⟨rfl, rfl⟩
              | nil =>
                dsimp only at hres
                have huemp : b.cells u = Cell.empty := by
                  apply hwde.2.2.2
                  rw [ht2]
                  simp
                exact forcedStep_restore (negaAB e) (fun b2 st2 a2 b2' p2 r2 hcall =>
                  ih b2 st2 a2 b2' p2 r2 hcall) b st α β u huemp res hres
            | nil =>
              rw [ht2] at hres
              have hemps : ∀ p ∈ (pointsOf b Cell.empty).reverse,
                  b.cells p = Cell.empty := by
                intro p hp
                rw [List.mem_reverse] at hp
                exact pointsOf_empty_mem b p hp
              exact negaLoop_restore (negaAB e) (fun b2 st2 a2 b2' p2 r2 hcall =>
                ih b2 st2 a2 b2' p2 r2 hcall) β (pointsOf b Cell.empty).reverse b α
                ((pointsOf b Cell.empty).headI) st hemps res hres

theorem play_move_effect (b : Board) (p : Int) (c : Player)
    (h : b.cells p = Cell.empty) :
    (play_move_gomoku b p c).1 = true ∧
    (play_move_gomoku b p c).2.cells p = c.toCell ∧
    (play_move_gomoku b p c).2.current_player = opponent c ∧
    ∀ q, q ≠ p → (play_move_gomoku b p c).2.cells q = b.cells q := by
  refine ⟨?_, ?_, ?_, ?_⟩ <;> simp [play_move_gomoku, h]
  intro q hq
  simp [hq]


theorem abLoop_restore (child : Board → ℚ → ℚ → Int → Option (ℚ × Board))
    (hchild : ∀ (b : Board) (α β : ℚ) (d : Int) (v : ℚ) (b2 : Board),
      child b α β d = some (v, b2) →
      b2.cells = b.cells ∧ b2.current_player = b.current_player)
    (β : ℚ) (d : Int) :
    ∀ (l : List Int) (b : Board) (α : ℚ),
      (∀ p ∈ l, b.cells p = Cell.empty) →
      ∀ (v : ℚ) (b2 : Board), abLoop child β d l b α = some (v, b2) →
        b2.cells = b.cells ∧ b2.current_player = b.current_player := by
  intro l
  induction l with
  | nil =>
    intro b α hemp v b2 hres
    simp only [abLoop] at hres
    injection hres with h
    rw [Prod.mk.injEq] at h
    obtain ⟨hv, hb⟩ := h
    subst hb
    exact ⟨rfl, rfl⟩
  | cons m rest ih =>
    intro b α hemp v b2 hres
    have hmemp : b.cells m = Cell.empty := hemp m (by simp)
    have hplay := play_move_effect b m b.current_player hmemp
    simp only [abLoop] at hres
    cases hc : child (play_move_gomoku b m b.current_player).2 (-β) (-α) (d - 1) with
    | none => rw [hc] at hres; cases hres
    | some r2 =>
      rw [hc] at hres
      obtain ⟨r0, b2c⟩ := r2
      have hrest := hchild _ _ _ _ _ _ hc
      have hb3c : (undo b2c m).cells = b.cells := by
        funext q
        by_cases hq : q = m
        · subst hq
          simp [undo]
          exact hmemp.symm
        · simp only [undo, if_neg hq]
          rw [congrFun hrest.1 q]
          exact hplay.2.2.2 q hq
      have hb3p : (undo b2c m).current_player = b.current_player := by
        simp only [undo]
        rw [hrest.2, hplay.2.2.1]
        exact opponent_opponent _
      dsimp only at hres
      by_cases hvb : -r0 ≥ β
      · rw [if_pos hvb] at hres
        injection hres with h
        rw [Prod.mk.injEq] at h
        obtain ⟨hv, hb⟩ := h
        subst hb
        exact ⟨hb3c, hb3p⟩
      · rw [if_neg hvb] at hres
        have hempr : ∀ p ∈ rest, (undo b2c m).cells p = Cell.empty := by
          intro p hp
          rw [hb3c]
          exact hemp p (by simp [hp])
        have hr := ih (undo b2c m) _ hempr v b2 hres
        rw [hb3c, hb3p] at hr
        exact hr

theorem alphabeta_restore : ∀ (fuel : Nat) (b : Board) (α β : ℚ) (d : Int) (v : ℚ)
    (b2 : Board), alphabeta fuel b α β d = some (v, b2) →
    b2.cells = b.cells ∧ b2.current_player = b.current_player := by
  intro fuel
  induction fuel with
  | zero =>
    intro b α β d v b2 hres
    simp only [alphabeta] at hres
    cases hres
  | succ n ih =>
    intro b α β d v b2 hres
    simp only [alphabeta] at hres
    cases hge : game_end b with
    | assertFail => rw [hge] at hres; cases hres
    | fuelOut => rw [hge] at hres; cases hres
    | val ov =>
      rw [hge] at hres
      cases ov with
      | some tv =>
        injection hres with h
        rw [Prod.mk.injEq] at h
        obtain ⟨hv, hb⟩ := h
        subst hb
        exact ⟨rfl, rfl⟩
      | none =>
        cases hsp : list_solve_point b with
        | some l =>
          cases l with
          | cons sp rest2 =>
            rw [hsp] at hres
            dsimp only at hres
            have hspemp : b.cells sp = Cell.empty :=
              list_solve_point_empty b _ hsp sp (by simp)
            have hplay := play_move_effect b sp b.current_player hspemp
            cases hc : alphabeta n (play_move_gomoku b sp b.current_player).2 (-β) (-α)
                (d - 1) with
            | none => rw [hc] at hres; cases hres
            | some r2 =>
              rw [hc] at hres
              obtain ⟨r0, b2c⟩ := r2
              have hrest := ih _ _ _ _ _ _ hc
              have hb3c : (undo b2c sp).cells = b.cells := by
                funext q
                by_cases hq : q = sp
                · subst hq
                  simp [undo]
                  exact hspemp.symm
                · simp only [undo, if_neg hq]
                  rw [congrFun hrest.1 q]
                  exact hplay.2.2.2 q hq
              have hb3p : (undo b2c sp).current_player = b.current_player := by
                simp only [undo]
                rw [hrest.2, hplay.2.2.1]
                exact opponent_opponent _
              dsimp only at hres
              split_ifs at hres <;>
                (injection hres with h
                 rw [Prod.mk.injEq] at h
                 obtain ⟨hv, hb⟩ := h
                 subst hb
                 exact ⟨hb3c, hb3p⟩)
          | nil =>
            rw [hsp] at hres
            dsimp only at hres
            split_ifs at hres with hd
            · injection hres with h
              rw [Prod.mk.injEq] at h
              obtain ⟨hv, hb⟩ := h
              subst hb
              exact ⟨rfl, rfl⟩
            · exact abLoop_restore (alphabeta n) (fun b3 a3 b3' d3 v3 bb3 hcall =>
                ih b3 a3 b3' d3 v3 bb3 hcall) β d (pointsOf b Cell.empty) b α
                (fun p hp => pointsOf_empty_mem b p hp) v b2 hres
        | none =>
          rw [hsp] at hres
          dsimp only at hres
          split_ifs at hres with hd
          · injection hres with h
            rw [Prod.mk.injEq] at h
            obtain ⟨hv, hb⟩ := h
            subst hb
            exact ⟨rfl, rfl⟩
          · exact abLoop_restore (alphabeta n) (fun b3 a3 b3' d3 v3 bb3 hcall =>
              ih b3 a3 b3' d3 v3 bb3 hcall) β d (pointsOf b Cell.empty) b α
              (fun p hp => pointsOf_empty_mem b p hp) v b2 hres

/-- C7: each call of either search procedure that returns normally leaves the
board cell contents and current_player exactly equal to their pre-call
values; this covers every exit path, including the pruning, terminal, and
forced-move early returns (calls whose terminal checks raise the internal
assertion return none and make no claim, mirroring the escaping exception). -/
theorem C7_search_frame (b : Board) (α β : ℚ) :
    (∀ (fuel : Nat) (d : Int) (v : ℚ) (b2 : Board),
      alphabeta fuel b α β d = some (v, b2) →
      b2.cells = b.cells ∧ b2.current_player = b.current_player) ∧
    (∀ (d : Nat) (st : Best) (prev : Option Int) (res : ℚ × Option Int × Board × Best),
      negaAB d b st α β prev = some res →
      res.2.2.1.cells = b.cells ∧ res.2.2.1.current_player = b.current_player) :=
  ⟨fun fuel d v b2 h => alphabeta_restore fuel b α β d v b2 h,
   fun d st prev res h => negaAB_restore d b st α β prev res h⟩

/-- The board with every interior cell holding a Black stone. -/
def cbFull : Board := mkBoard (fun _ => Cell.black) Player.black

set_option maxHeartbeats 2000000 in
/-- C7 witness: an alphabeta call on a terminal board and a negaAB call on a
full board both return with the board exactly restored. -/
theorem C7_search_frame_witness :
    alphabeta 1 cb5 0 1 0 = some (INFINITY, cb5) ∧
    negaAB 1 cbFull ⟨-1000000, none⟩ 0 1 none
      = some (0, none, cbFull, ⟨-1000000, none⟩) ∧
    cb5.cells = cb5.cells ∧ cbFull.current_player = cbFull.current_player := by
  have h1 : alphabeta 1 cb5 0 1 0 = some (INFINITY, cb5) := by rfl
  have h2 : negaAB 1 cbFull ⟨-1000000, none⟩ 0 1 none
      = some (0, none, cbFull, ⟨-1000000, none⟩) := by rfl
  have h3 := (C7_search_frame cb5 0 1).1 1 0 INFINITY cb5 h1
  have h4 := (C7_search_frame cbFull 0 1).2 1 ⟨-1000000, none⟩ none
    (0, none, cbFull, ⟨-1000000, none⟩) h2
  exact ⟨h1, h2, h3.1, h4.2⟩

/-- C8: at nonzero depth with empty points remaining and no immediate own
win, `negaAB` returns the loss value -1 when the opponent has two or more
immediate winning points, and also when the opponent has exactly one
immediate winning point together with a two-move threat; with exactly one
opponent winning point and no opponent two-move threat, the node reduces to
the single forced blocking step at that point — no other move is explored. -/
theorem C8_negaAB_threats (b : Board) (st : Best) (α β : ℚ) (d : Nat) (prev : Option Int)
    (hne : pointsOf b Cell.empty ≠ [])
    (hmw : (winDetection b).1 = []) :
    (∀ (q1 q2 : Int) (qs : List Int), (winDetection b).2.1 = q1 :: q2 :: qs →
      negaAB (d + 1) b st α β prev = some (-1, some q1, b, st)) ∧
    (∀ q : Int, (winDetection b).2.1 = [q] → (winDetection b).2.2.2 ≠ [] →
      negaAB (d + 1) b st α β prev = some (-1, some q, b, st)) ∧
    (∀ q : Int, (winDetection b).2.1 = [q] → (winDetection b).2.2.2 = [] →
      negaAB (d + 1) b st α β prev = forcedStep (negaAB d) b st α β q) := by
  refine ⟨?_, ?_, ?_⟩
  · intro q1 q2 qs heq
    simp only [negaAB]
    rw [if_neg hne, if_neg (by simp [hmw]), heq]
  · intro q heq ht2
    simp only [negaAB]
    rw [if_neg hne, if_neg (by simp [hmw]), heq]
    simp only [if_pos ht2]
  · intro q heq ht2
    simp only [negaAB]
    rw [if_neg hne, if_neg (by simp [hmw]), heq]
    simp only [ht2, ne_eq, not_true_eq_false, if_false]

/-- Board with two separate White four-in-a-rows (9-12 and 33-36), Black to
move: White has the two winning points 13 and 37. -/
def cb8a : Board := mkBoard
  (fun p => if (9 ≤ p ∧ p ≤ 12) ∨ (33 ≤ p ∧ p ≤ 36) then Cell.white else Cell.empty)
  Player.black

/-- Board with one White four-in-a-row (9-12), Black to move: White has the
single winning point 13 and no two-move threat. -/
def cb8b : Board := mkBoard
  (fun p => if 9 ≤ p ∧ p ≤ 12 then Cell.white else Cell.empty)
  Player.black

set_option maxHeartbeats 2000000 in
/-- C8 witness: with two White fours the node is an immediate loss with the
first block point; with one White four the node reduces to the forced block
at 13. -/
theorem C8_negaAB_threats_witness :
    negaAB 1 cb8a ⟨-1000000, none⟩ 0 1 none = some (-1, some 13, cb8a, ⟨-1000000, none⟩) ∧
    negaAB 1 cb8b ⟨-1000000, none⟩ 0 1 none = forcedStep (negaAB 0) cb8b ⟨-1000000, none⟩ 0 1 13 :=
  ⟨(C8_negaAB_threats cb8a ⟨-1000000, none⟩ 0 1 0 none (by decide) (by decide)).1
      13 37 [] (by decide),
   (C8_negaAB_threats cb8b ⟨-1000000, none⟩ 0 1 0 none (by decide) (by decide)).2.2
      13 (by decide) (by decide)⟩

end Gomoku
